import Mathlib

/-!
# dmiprint: SMBIOS entry point and structure-table walker

A shallow embedding of `src/dmiprint.c`.  Files are byte lists; a C pointer
into a buffer is the offset of the byte it points at; `exit` and `return`
are the constructors of the outcome types.
-/

namespace Dmiprint

/-- One octet of a file or buffer. -/
abbrev Byte := Fin 256

/-- The unsigned value of the byte at offset `i` (`*((unsigned char*) buf + i)`). -/
def rd (buf : List Byte) (i : Nat) : Nat := (buf.getD i 0).val

/-- Little-endian 16-bit load, `le16toh(*((uint16_t*) (buf + i)))`. -/
def rd16 (buf : List Byte) (i : Nat) : Nat := rd buf i + 256 * rd buf (i + 1)

/-- Little-endian 32-bit load, `le32toh(*((uint32_t*) (buf + i)))`. -/
def rd32 (buf : List Byte) (i : Nat) : Nat := rd16 buf i + 65536 * rd16 buf (i + 2)

/-- Little-endian 64-bit load, `le64toh(*((uint64_t*) (buf + i)))`. -/
def rd64 (buf : List Byte) (i : Nat) : Nat := rd32 buf i + 4294967296 * rd32 buf (i + 4)

/-- The value of the byte at offset `i` read through a `char*` (`*(buf + i)`
with `char *buf`): plain `char` is signed on the target (Linux, x86-64), so the
bytes from 0x80 on are read as the negative values `byte - 256`. -/
def rdc (buf : List Byte) (i : Nat) : Int :=
  if rd buf i < 128 then (rd buf i : Int) else (rd buf i : Int) - 256

/-! ## Entry point (`read_entrypoint`, lines 42-130) -/

/-- The four ways `read_entrypoint` reaches `BAD_HEADER` (all end in `exit(2)`):
the first `read` returned fewer than 8 bytes; the anchor did not match; one of
the three length tests fired; the second `read` came up short. -/
inductive EntryError where
  | TooShort
  | BadSignature
  | BadLength
  | Truncated
  deriving DecidableEq, Repr

/-- The C `struct sm_header`; `char len` is never assigned and keeps its
initial zero, `version` is the `char version[3]` array, of signed values. -/
structure sm_header where
  len : Int
  version : Int × Int × Int
  st_len : Nat
  st_addr : Nat
  deriving DecidableEq, Repr

/-- Lines 56-74: the anchor test.  Yields `mode64bit` and the offset `p`
of the checksum byte, or `none` where the C code jumps to `BAD_HEADER`. -/
def entry_mode (buf : List Byte) : Option (Bool × Nat) :=
  if rd buf 0 = 0x5F ∧ rd buf 1 = 0x53 ∧ rd buf 2 = 0x4D then
    if rd buf 3 = 0x5F then some (false, 4)
    else if rd buf 3 = 0x33 ∧ rd buf 4 = 0x5F then some (true, 5)
    else none
  else none

/-- Lines 42-130.  `file` is what the descriptor `fd` delivers; the local
`buf` holds its first 8 bytes, later its first `ep_len` bytes.  The length is
stored in an `unsigned char`, the version bytes are copied as `char`. -/
def read_entrypoint (file : List Byte) : Except EntryError sm_header :=
  if file.length < 8 then .error .TooShort
  else
    match entry_mode (file.take 8) with
    | none => .error .BadSignature
    | some (mode64bit, p) =>
      -- next byte is checksum, ignore
      let p := p + 1
      let ep_len := rd (file.take 8) p
      let p := p + 1
      if mode64bit ∧ ep_len < 0x18 then .error .BadLength
      else if ¬ mode64bit ∧ ep_len < 0x1e then .error .BadLength
      else if ep_len ≥ 0x24 then .error .BadLength
      else if file.length - 8 < ep_len - 8 then .error .Truncated
      else
        let buf := file.take ep_len
        if mode64bit then
          .ok { len := 0
                version := (rdc buf p, rdc buf (p + 1), rdc buf (p + 2))
                st_len := rd32 buf 0x0c
                st_addr := rd64 buf 0x10 }
        else
          .ok { len := 0
                version := (rdc buf p, rdc buf (p + 1), 0)
                st_len := rd16 buf 0x16
                st_addr := rd32 buf 0x18 }

/-! ## Structure table (`decode_dmi`, lines 139-264) -/

/-- The C `struct pci_bdf`: the query (`all` set by `-a`) or a decoded address. -/
structure pci_bdf where
  all : Bool
  segment : Nat
  bus : Nat
  dev : Nat
  fn : Nat
  deriving DecidableEq, Repr

/-- The three `goto BAD_TABLE` sites of `decode_dmi`: "entry too short"
(line 178), "entry overflow" (line 187), "string table overflow" (line 194). -/
inductive DecodeError where
  | MalformedRecord
  | RecordOverflow
  | StringTableOverflow
  deriving DecidableEq, Repr

/-- What the two `printf` calls write to stdout: the line of line 240
(`-a` mode) or the bare slot name of line 247.  A `NULL` slot name is `none`. -/
inductive Output where
  | line (segment bus dev fn : Nat) (slot_name : Option (List Byte))
  | name (slot_name : Option (List Byte))
  deriving DecidableEq, Repr

/-- How `decode_dmi` ends: `return ret` (lines 154, 168, 259) or, after
`BAD_TABLE`, `exit(EXIT_FAILURE)` (line 263). -/
inductive Status where
  | returned (ret : Nat)
  | bad_table (e : DecodeError)
  deriving DecidableEq, Repr

/-- Everything observable of one run: stdout in print order, and the end. -/
structure Result where
  out : List Output
  status : Status
  deriving DecidableEq, Repr

/-- The NUL-terminated C string that starts at offset `p`, as `%s` prints it. -/
def cstr (buf : List Byte) (p : Nat) : List Byte := (buf.drop p).takeWhile (fun b => b ≠ 0)

/-- Line 200, `while ((pcur < pend) && *pcur++);`: the first argument bounds
the number of iterations and is `pend - pcur` at the call. -/
def skip_string (buf : List Byte) (pend : Nat) : Nat → Nat → Nat
  | 0, pcur => pcur
  | fuel + 1, pcur =>
    if pcur < pend then
      if rd buf pcur ≠ 0 then skip_string buf pend fuel (pcur + 1) else pcur + 1
    else pcur

/-- Lines 193-209, the loop `for(n=0;n<255;n++)`: `k` iterations are left,
`n` is the loop counter.  Yields the cursor after the loop and the entries
`strings[n], strings[n+1], ...` it has written (`none` for one left `NULL`). -/
def scan_strings (buf : List Byte) (pend : Nat) :
    Nat → Nat → Nat → Except DecodeError (Nat × List (Option Nat))
  | 0, _, pcur => .ok (pcur, [])
  | k + 1, n, pcur =>
    if pcur ≥ pend then .error .StringTableOverflow
    else if rd buf pcur ≠ 0 then
      match scan_strings buf pend k (n + 1)
          (skip_string buf pend (pend - (pcur + 1)) (pcur + 1)) with
      | .error e => .error e
      | .ok (p, strings) => .ok (p, some pcur :: strings)
    else if n ≠ 0 then .ok (pcur + 1, [])
    else
      match scan_strings buf pend k (n + 1) (pcur + 1) with
      | .error e => .error e
      | .ok (p, strings) => .ok (p, none :: strings)

/-- Lines 225-226: the slot types that carry a PCI address. -/
def pci_slot_type (slot_type : Nat) : Bool :=
  (slot_type ≥ 0xA5 && slot_type ≤ 0xb6) || slot_type == 0x06 || slot_type == 0x0e
    || slot_type == 0x12 || (slot_type ≥ 0x1f && slot_type ≤ 0x23)

/-- Lines 215-219: `slot_name`, the entry `strings[slot_name_pos-1]` or `NULL`. -/
def slot_name_of (strings : List (Option Nat)) (slot_name_pos : Nat) : Option Nat :=
  if slot_name_pos ≠ 0 ∧ slot_name_pos < 255 then strings.getD (slot_name_pos - 1) none
  else none

/-- How one pass through the body of the loop of line 172 ends: at the end
of the body or at `continue` (with the new cursor, the new `ret` and what was
printed), at the `break` of line 249, or at a `goto BAD_TABLE`. -/
inductive Step where
  | next (pcur ret : Nat) (out : List Output)
  | brk (out : List Output) (ret : Nat)
  | bad (e : DecodeError)
  deriving DecidableEq, Repr

/-- Lines 211-255, the part of the loop body after the string area: the
record starts at `start`, has type `type` and length `len`, the cursor `pcur`
is behind its string area and `strings` is `entry.strings`. -/
def slot_check (buf : List Byte) (qbdf : pci_bdf) (start type len pcur : Nat)
    (strings : List (Option Nat)) (ret : Nat) : Step :=
  if type = 9 then
    -- System Slot
    let slot_name_pos := rd buf (start + 0x04)
    let slot_type := rd buf (start + 0x05)
    let slot_name := slot_name_of strings slot_name_pos
    if len < 0x10 then .next pcur ret []
    else if pci_slot_type slot_type then
      let segment := rd16 buf (start + 0x0d)
      let bus := rd buf (start + 0x0f)
      let dev := rd buf (start + 0x10) >>> 3
      let fn := rd buf (start + 0x10) &&& 0x7
      if qbdf.all then
        .next pcur 0 [.line segment bus dev fn (slot_name.map (cstr buf))]
      else if bus = qbdf.bus ∧ segment = qbdf.segment
          ∧ dev = qbdf.dev ∧ fn = qbdf.fn then
        .brk [.name (slot_name.map (cstr buf))] 0
      else .next pcur ret []
    else .next pcur ret []
  else .next pcur ret []

/-- Lines 173-255, the body of the loop `while (pcur + 4 < pend)` entered with
cursor `pcur` and the current value of `ret`.  (`entry.handle` is read at
`start + 2` but only used in messages.) -/
def loop_body (buf : List Byte) (pend : Nat) (qbdf : pci_bdf) (pcur ret : Nat) : Step :=
  let start := pcur
  let type := rd buf start
  let len := rd buf (start + 1)
  if len < 4 then .bad .MalformedRecord
  else
    let pcur := start + len
    if pcur ≥ pend then .bad .RecordOverflow
    else
      -- now, jump to string area
      match scan_strings buf pend 255 0 pcur with
      | .error e => .bad e
      | .ok (pcur, strings) => slot_check buf qbdf start type len pcur strings ret

/-- Puts what was printed earlier in front of what the rest of the run prints. -/
def prepend (out : List Output) (r : Result) : Result := { r with out := out ++ r.out }

/-- Lines 171-259, the loop `while (pcur + 4 < pend)` from cursor `pcur` with
the current value of `ret`, up to the `return ret` of line 259.  The first
argument bounds the number of passes; `none` means the bound was reached. -/
def walk (buf : List Byte) (pend : Nat) (qbdf : pci_bdf) : Nat → Nat → Nat → Option Result
  | 0, _, _ => none
  | fuel + 1, pcur, ret =>
    if pcur + 4 < pend then
      match loop_body buf pend qbdf pcur ret with
      | .bad e => some ⟨[], .bad_table e⟩
      | .brk out ret => some ⟨out, .returned ret⟩
      | .next pcur ret out => (walk buf pend qbdf fuel pcur ret).map (prepend out)
    else some ⟨[], .returned ret⟩

/-- Lines 139-264.  `file` is what `fd` delivers and `len` the table length
from the entry point; the buffer is the first `len` bytes, and a shorter file
ends in `return EXIT_FAILURE` (line 168). -/
def decode_dmi (file : List Byte) (len : Nat) (qbdf : pci_bdf) : Option Result :=
  if file.length < len then some ⟨[], .returned 1⟩
  else walk (file.take len) len qbdf (len + 1) 0 2


/-! ## Vocabulary of the specification and sample inputs -/

/-- The 32-bit anchor, the characters of `_SM_`. -/
def anchor32 : List Byte := [0x5F, 0x53, 0x4D, 0x5F]

/-- The 64-bit anchor, `_SM3` followed by an underscore. -/
def anchor64 : List Byte := [0x5F, 0x53, 0x4D, 0x33, 0x5F]

/-- The `k` low bytes of `v`, least significant first. -/
def le_bytes : Nat → Nat → List Byte
  | 0, _ => []
  | k + 1, v => Fin.ofNat (v % 256) :: le_bytes k (v / 256)

/-- The byte that stores the `char` value `c` (two's complement). -/
def char_byte (c : Int) : Byte := Fin.ofNat (c % 256).toNat

/-! ### Loop heads the walk reaches -/

/-- The walk gets from the loop head with cursor `s` and `ret` to the loop head
with cursor `s2` and `ret2`, printing `out` on the way: a chain of passes
through the loop body, each entered because `pcur + 4 < pend` holds. -/
inductive Steps (buf : List Byte) (pend : Nat) (qbdf : pci_bdf) :
    Nat → Nat → List Output → Nat → Nat → Prop where
  | refl (s ret : Nat) : Steps buf pend qbdf s ret [] s ret
  | head {s ret s1 ret1 s2 ret2 : Nat} {o out : List Output} :
      s + 4 < pend → loop_body buf pend qbdf s ret = .next s1 ret1 o →
      Steps buf pend qbdf s1 ret1 out s2 ret2 → Steps buf pend qbdf s ret (o ++ out) s2 ret2

/-- The loop head with cursor `s` and `ret` is reached by the walk that starts
at line 171 (cursor 0, `ret` 2), after `out` has been printed. -/
def Reached (buf : List Byte) (pend : Nat) (qbdf : pci_bdf) (s ret : Nat)
    (out : List Output) : Prop :=
  Steps buf pend qbdf 0 2 out s ret

/-! ### Records and tables -/

/-- A structure-table record as the format describes it: the four header
bytes, the rest of the formatted area, and the strings of the string area. -/
structure Rec where
  type : Byte
  declared_len : Byte
  handle_lo : Byte
  handle_hi : Byte
  body : List Byte
  strings : List (List Byte)
  deriving DecidableEq, Repr

/-- The strings of a string area, each followed by its terminating zero. -/
def str_bytes : List (List Byte) → List Byte
  | [] => []
  | s :: ss => s ++ 0 :: str_bytes ss

/-- The offsets at which the strings of `str_bytes` start when the first
starts at `base`: what `entry.strings` holds after the scan. -/
def str_ptrs (base : Nat) : List (List Byte) → List (Option Nat)
  | [] => []
  | s :: ss => some base :: str_ptrs (base + s.length + 1) ss

/-- The string area: the terminated strings and one closing zero, or two
zero bytes when there is no string. -/
def str_area (strings : List (List Byte)) : List Byte :=
  if strings = [] then [0, 0] else str_bytes strings ++ [0]

/-- The bytes of a record. -/
def Rec.encode (r : Rec) : List Byte :=
  r.type :: r.declared_len :: r.handle_lo :: r.handle_hi :: (r.body ++ str_area r.strings)

/-- A well-formed record: the declared length is at least 4 and counts the
header and the rest of the formatted area; at most 255 strings, each non-empty
and free of zero bytes. -/
def Rec.WellFormed (r : Rec) : Prop :=
  4 ≤ r.declared_len.val ∧ r.body.length + 4 = r.declared_len.val
    ∧ r.strings.length ≤ 255 ∧ ∀ s ∈ r.strings, s ≠ [] ∧ ∀ c ∈ s, c ≠ 0

/-- The structure table made of the given records, in order. -/
def table : List Rec → List Byte
  | [] => []
  | r :: rs => r.encode ++ table rs

/-- The PCI-bearing slot types as the specification lists them. -/
def pci_bearing (slot_type : Nat) : Prop :=
  slot_type ∈ [0x06, 0x0E, 0x12, 0x1F, 0x20, 0x21, 0x22, 0x23]
    ∨ (0xA5 ≤ slot_type ∧ slot_type ≤ 0xB6)

instance (slot_type : Nat) : Decidable (pci_bearing slot_type) :=
  inferInstanceAs (Decidable (_ ∨ _))

/-- A record of interest: type 9, declared length at least 0x10, and a
PCI-bearing slot type at offset 0x05. -/
def Rec.decodable (r : Rec) : Prop :=
  r.type.val = 9 ∧ 0x10 ≤ r.declared_len.val ∧ pci_bearing (rd r.encode 0x05)

instance (r : Rec) : Decidable r.decodable :=
  inferInstanceAs (Decidable (_ ∧ _))

/-- The slot name of a record: the string its index byte (offset 0x04) refers
to, counting from 1; unset for index 0 or an index past the last string. -/
def Rec.slot_name (r : Rec) : Option (List Byte) :=
  if rd r.encode 0x04 = 0 then none else r.strings[rd r.encode 0x04 - 1]?

/-- The line printed for a record in `-a` mode: segment (16 bits, little-endian,
offset 0x0D), bus (offset 0x0F), device and function (high 5 and low 3 bits of
the byte at offset 0x10), and the slot name. -/
def Rec.entry (r : Rec) : Output :=
  .line (rd r.encode 0x0d + 256 * rd r.encode 0x0e) (rd r.encode 0x0f)
    (rd r.encode 0x10 / 8) (rd r.encode 0x10 % 8) r.slot_name

/-- Whether the address of a record equals the queried one in all four fields. -/
def Rec.matches (r : Rec) (qbdf : pci_bdf) : Prop :=
  rd r.encode 0x0d + 256 * rd r.encode 0x0e = qbdf.segment ∧ rd r.encode 0x0f = qbdf.bus
    ∧ rd r.encode 0x10 / 8 = qbdf.dev ∧ rd r.encode 0x10 % 8 = qbdf.fn

instance (r : Rec) (qbdf : pci_bdf) : Decidable (r.matches qbdf) :=
  inferInstanceAs (Decidable (_ ∧ _))

instance (r : Rec) : Decidable r.WellFormed :=
  inferInstanceAs (Decidable (_ ∧ _ ∧ _ ∧ _))

/-- The lines `-a` mode is to print for a table: one per record of interest,
in table order. -/
def entries (rs : List Rec) : List Output :=
  (rs.filter (fun r => decide r.decodable)).map Rec.entry

/-- A type-9 record of length 0x11: slot name index 1, slot type 0x06,
address 0000:02:03.1 (device/function byte 0x19), one string `Slot1`. -/
def slot1_rec : Rec :=
  { type := 9, declared_len := 0x11, handle_lo := 0x34, handle_hi := 0x12
    body := [1, 0x06, 0, 0, 0, 0, 0, 0, 0, 0, 0, 0x02, 0x19]
    strings := [[0x53, 0x6c, 0x6f, 0x74, 0x31]] }

/-- A type-1 record of length 4 with `k` one-letter strings. -/
def many_strings (k : Nat) : Rec :=
  { type := 1, declared_len := 4, handle_lo := 0, handle_hi := 0
    body := [], strings := List.replicate k [0x61] }

/-- A 32-bit entry point of 0x1F bytes: version 2.8, table length 0x1234,
table address 0x12345678. -/
def ep32 : List Byte :=
  [0x5F, 0x53, 0x4D, 0x5F, 0xA7, 0x1F, 2, 8] ++ List.replicate 14 0
    ++ [0x34, 0x12, 0x78, 0x56, 0x34, 0x12] ++ [0, 0, 0]

/-- A 64-bit entry point of 0x18 bytes: version 3.2.1, table length 0x00012345,
table address 0x0000000123456789. -/
def ep64 : List Byte :=
  [0x5F, 0x53, 0x4D, 0x33, 0x5F, 0xC3, 0x18, 3, 2, 1, 1, 0]
    ++ [0x45, 0x23, 0x01, 0x00] ++ [0x89, 0x67, 0x45, 0x23, 0x01, 0, 0, 0]

/-- A type-9 record of length 0x0F, one byte short of the threshold: slot name
index 1, slot type 0x06, one string `A`. -/
def short_slot_rec : Rec :=
  { type := 9, declared_len := 0x0F, handle_lo := 1, handle_hi := 0
    body := [1, 0x06, 0, 0, 0, 0, 0, 0, 0, 0, 0]
    strings := [[0x41]] }

/-- The slot name that is printed for a record: the string its index byte
(offset 0x04) refers to when the index is between 1 and 254; unset for the
indices 0 and 255 and for an index past the last string. -/
def Rec.printed_name (r : Rec) : Option (List Byte) :=
  if 1 ≤ rd r.encode 0x04 ∧ rd r.encode 0x04 ≤ 254 then r.strings[rd r.encode 0x04 - 1]?
  else none

/-- Where the cursor is after the pass over a record: behind the record, or on
its closing zero when the record has 255 strings. -/
def Rec.cursor_after (r : Rec) (start : Nat) : Nat :=
  start + r.encode.length - (if r.strings.length = 255 then 1 else 0)

/-- A type-9 record of length 0x11 with 255 strings `a` whose slot name index
is 255: slot type 0x06, address 0000:02:03.1. -/
def full_slot_rec : Rec :=
  { type := 9, declared_len := 0x11, handle_lo := 2, handle_hi := 0
    body := [255, 0x06, 0, 0, 0, 0, 0, 0, 0, 0, 0, 0x02, 0x19]
    strings := List.replicate 255 [0x61] }

/-- A type-9 record of length 0x10, whose formatted area ends with the bus byte
at offset 0x0F: slot name index 1, slot type 0x06, segment 0, bus 2, one string
`Slot1`. -/
def edge_slot_rec : Rec :=
  { type := 9, declared_len := 0x10, handle_lo := 3, handle_hi := 0
    body := [1, 0x06, 0, 0, 0, 0, 0, 0, 0, 0, 0, 0x02]
    strings := [[0x53, 0x6c, 0x6f, 0x74, 0x31]] }

/-! ## The walker with checked reads -/

/-- A read of the byte at offset `i` that is checked: outside the declared
length `pend` or outside the buffer it fails with the offending offset. -/
def rd_chk (buf : List Byte) (pend i : Nat) : Except Nat Nat :=
  if i < pend ∧ i < buf.length then .ok (rd buf i) else .error i

/-- The 16-bit load of `rd16` through checked reads of its two bytes. -/
def rd16_chk (buf : List Byte) (pend i : Nat) : Except Nat Nat := do
  let lo ← rd_chk buf pend i
  let hi ← rd_chk buf pend (i + 1)
  pure (lo + 256 * hi)

/-- The loop of `skip_string` (line 200) with its read checked. -/
def skip_string_chk (buf : List Byte) (pend : Nat) : Nat → Nat → Except Nat Nat
  | 0, pcur => pure pcur
  | fuel + 1, pcur =>
    if pcur < pend then do
      let b ← rd_chk buf pend pcur
      if b ≠ 0 then skip_string_chk buf pend fuel (pcur + 1) else pure (pcur + 1)
    else pure pcur

/-- The loop of `scan_strings` (lines 193-209) with its reads checked. -/
def scan_strings_chk (buf : List Byte) (pend : Nat) :
    Nat → Nat → Nat → Except Nat (Except DecodeError (Nat × List (Option Nat)))
  | 0, _, pcur => pure (.ok (pcur, []))
  | k + 1, n, pcur =>
    if pcur ≥ pend then pure (.error .StringTableOverflow)
    else do
      let b ← rd_chk buf pend pcur
      if b ≠ 0 then do
        let q ← skip_string_chk buf pend (pend - (pcur + 1)) (pcur + 1)
        match ← scan_strings_chk buf pend k (n + 1) q with
        | .error e => pure (.error e)
        | .ok (p, strings) => pure (.ok (p, some pcur :: strings))
      else if n ≠ 0 then pure (.ok (pcur + 1, []))
      else
        match ← scan_strings_chk buf pend k (n + 1) (pcur + 1) with
        | .error e => pure (.error e)
        | .ok (p, strings) => pure (.ok (p, none :: strings))

/-- The bytes `%s` reads from offset `p` on, each through a checked read:
`printf` reads on until it has read a zero byte, wherever that is.  The first
argument counts the reads that are left; at the call it is
`buf.length + 1 - p`, one more than the bytes the buffer holds from `p` on, so
the reading never ends for want of it: the read at `buf.length`, if the reading
gets there, fails its check.  A read that is not made for want of it counts as
failed. -/
def cstr_chk (buf : List Byte) (pend : Nat) : Nat → Nat → Except Nat (List Byte)
  | 0, p => .error p
  | fuel + 1, p => do
    let b ← rd_chk buf pend p
    if b = 0 then pure []
    else do
      let rest ← cstr_chk buf pend fuel (p + 1)
      pure (buf.getD p 0 :: rest)

/-- What `printf` reads for `slot_name`: nothing for `NULL`, else the string
up to its zero byte. -/
def name_chk (buf : List Byte) (pend : Nat) : Option Nat → Except Nat (Option (List Byte))
  | none => pure none
  | some p => do
    let s ← cstr_chk buf pend (buf.length + 1 - p) p
    pure (some s)

/-- What a `DEBUG` call with a `%s` for `slot_name` reads (lines 236, 252):
the string when `do_debug` is set, nothing otherwise. -/
def debug_name_chk (buf : List Byte) (pend : Nat) (do_debug : Bool) (slot_name : Option Nat) :
    Except Nat Unit :=
  if do_debug then do
    let _ ← name_chk buf pend slot_name
    pure ()
  else pure ()

/-- The part `slot_check` of the loop body (lines 211-255) with checked reads of
the record fields at offsets 0x04, 0x05, 0x0D, 0x0E, 0x0F and 0x10 and of the
bytes the two `printf` calls and, with `-v`, the two `DEBUG` calls read through
`slot_name`. -/
def slot_check_chk (buf : List Byte) (pend : Nat) (qbdf : pci_bdf) (do_debug : Bool)
    (start type len pcur : Nat) (strings : List (Option Nat)) (ret : Nat) : Except Nat Step :=
  if type = 9 then do
    let slot_name_pos ← rd_chk buf pend (start + 0x04)
    let slot_type ← rd_chk buf pend (start + 0x05)
    let slot_name := slot_name_of strings slot_name_pos
    if len < 0x10 then pure (.next pcur ret [])
    else if pci_slot_type slot_type then do
      let segment ← rd16_chk buf pend (start + 0x0d)
      let bus ← rd_chk buf pend (start + 0x0f)
      let devfn ← rd_chk buf pend (start + 0x10)
      let dev := devfn >>> 3
      let fn := devfn &&& 0x7
      debug_name_chk buf pend do_debug slot_name
      if qbdf.all then do
        let name ← name_chk buf pend slot_name
        pure (.next pcur 0 [.line segment bus dev fn name])
      else if bus = qbdf.bus ∧ segment = qbdf.segment
          ∧ dev = qbdf.dev ∧ fn = qbdf.fn then do
        let name ← name_chk buf pend slot_name
        pure (.brk [.name name] 0)
      else pure (.next pcur ret [])
    else do
      debug_name_chk buf pend do_debug slot_name
      pure (.next pcur ret [])
  else pure (.next pcur ret [])

/-- A string that starts at offset `p` has its terminating zero inside the
declared length. -/
def Terminated (buf : List Byte) (pend p : Nat) : Prop :=
  ∃ e, p ≤ e ∧ e < pend ∧ rd buf e = 0 ∧ ∀ i, p ≤ i → i < e → rd buf i ≠ 0

/-- The loop body (lines 173-255) with checked reads: the header bytes (type,
length, and the two bytes of the handle), then the string area, then the
fields of a type-9 record. -/
def loop_body_chk (buf : List Byte) (pend : Nat) (qbdf : pci_bdf) (do_debug : Bool)
    (pcur ret : Nat) : Except Nat Step := do
  let start := pcur
  let type ← rd_chk buf pend start
  let len ← rd_chk buf pend (start + 1)
  let _handle ← rd16_chk buf pend (start + 2)
  if len < 4 then pure (.bad .MalformedRecord)
  else
    let pcur := start + len
    if pcur ≥ pend then pure (.bad .RecordOverflow)
    else
      match ← scan_strings_chk buf pend 255 0 pcur with
      | .error e => pure (.bad e)
      | .ok (pcur, strings) =>
        slot_check_chk buf pend qbdf do_debug start type len pcur strings ret

/-- The loop of `walk` (lines 171-259) over the checked loop body; a failed
check ends the run with the offending offset. -/
def walk_chk (buf : List Byte) (pend : Nat) (qbdf : pci_bdf) (do_debug : Bool) :
    Nat → Nat → Nat → Option (Except Nat Result)
  | 0, _, _ => none
  | fuel + 1, pcur, ret =>
    if pcur + 4 < pend then
      match loop_body_chk buf pend qbdf do_debug pcur ret with
      | .error i => some (.error i)
      | .ok (.bad e) => some (.ok ⟨[], .bad_table e⟩)
      | .ok (.brk out ret) => some (.ok ⟨out, .returned ret⟩)
      | .ok (.next pcur ret out) =>
        (walk_chk buf pend qbdf do_debug fuel pcur ret).map (Except.map (prepend out))
    else some (.ok ⟨[], .returned ret⟩)

/-- The function `decode_dmi` over the checked walk; `do_debug` is the global
that `-v` sets. -/
def decode_dmi_chk (file : List Byte) (len : Nat) (qbdf : pci_bdf) (do_debug : Bool) :
    Option (Except Nat Result) :=
  if file.length < len then some (.ok ⟨[], .returned 1⟩)
  else walk_chk (file.take len) len qbdf do_debug (len + 1) 0 2

/-! ## Reading bytes -/

theorem rd_lt (buf : List Byte) (i : Nat) : rd buf i < 256 := (buf.getD i 0).isLt

theorem rd_take (buf : List Byte) (n i : Nat) (h : i < n) : rd (buf.take n) i = rd buf i := by
  simp [rd, List.getD_eq_getElem?_getD, List.getElem?_take, h]

theorem rd_cons_succ (b : Byte) (buf : List Byte) (i : Nat) : rd (b :: buf) (i + 1) = rd buf i := by
  simp [rd]

theorem rd_cons_zero (b : Byte) (buf : List Byte) : rd (b :: buf) 0 = b.val := by
  simp [rd]

theorem rd_append_right (pre buf : List Byte) (i : Nat) :
    rd (pre ++ buf) (pre.length + i) = rd buf i := by
  induction pre with
  | nil => simp
  | cons b pre ih => simpa [Nat.add_right_comm, rd_cons_succ] using ih

theorem rd_append_left (pre buf : List Byte) (i : Nat) (h : i < pre.length) :
    rd (pre ++ buf) i = rd pre i := by
  simp [rd, List.getD_eq_getElem?_getD, List.getElem?_append_left h]

theorem rd_drop (buf : List Byte) (n i : Nat) : rd (buf.drop n) i = rd buf (n + i) := by
  simp [rd, List.getD_eq_getElem?_getD]

theorem anchor32_iff (file : List Byte) (h : 8 ≤ file.length) :
    anchor32 <+: file ↔
      rd file 0 = 0x5F ∧ rd file 1 = 0x53 ∧ rd file 2 = 0x4D ∧ rd file 3 = 0x5F := by
  match file, h with
  | a :: b :: c :: d :: e :: f :: g :: i :: rest, _ =>
    simp [anchor32, rd, Fin.ext_iff, List.cons_prefix_cons]
    tauto

theorem anchor64_iff (file : List Byte) (h : 8 ≤ file.length) :
    anchor64 <+: file ↔
      rd file 0 = 0x5F ∧ rd file 1 = 0x53 ∧ rd file 2 = 0x4D ∧ rd file 3 = 0x33
        ∧ rd file 4 = 0x5F := by
  match file, h with
  | a :: b :: c :: d :: e :: f :: g :: i :: rest, _ =>
    simp [anchor64, rd, Fin.ext_iff, List.cons_prefix_cons]
    tauto

theorem rdc_take (buf : List Byte) (n i : Nat) (h : i < n) : rdc (buf.take n) i = rdc buf i := by
  simp only [rdc, rd_take buf n i h]

/-- The `char` read at offset `i` holds the byte there: it is the byte value
below 0x80, the byte value less 256 from 0x80 on, and in both cases the byte
value modulo 256. -/
theorem rdc_byte (buf : List Byte) (i : Nat) :
    (rd buf i < 0x80 → rdc buf i = rd buf i)
    ∧ (0x80 ≤ rd buf i → rdc buf i = (rd buf i : Int) - 256)
    ∧ rdc buf i % 256 = rd buf i ∧ -128 ≤ rdc buf i ∧ rdc buf i < 128 := by
  have hlt : rd buf i < 256 := (buf.getD i 0).isLt
  unfold rdc
  split_ifs with h
  · refine ⟨fun _ => rfl, fun h2 => by omega, ?_, by omega, by omega⟩
    omega
  · refine ⟨fun h2 => by omega, fun _ => rfl, ?_, by omega, by omega⟩
    omega

/-- A `char` value written as its byte is read back. -/
theorem rdc_char_byte (buf : List Byte) (i : Nat) (c : Int) (hlo : -128 ≤ c) (hhi : c < 128)
    (h : rd buf i = (char_byte c).val) : rdc buf i = c := by
  have hv : (char_byte c).val = (c % 256).toNat := by
    have : (c % 256).toNat < 256 := by omega
    simp [char_byte, Fin.ofNat, Nat.mod_eq_of_lt this]
  rw [hv] at h
  unfold rdc
  rw [h]
  split_ifs with h2 <;> omega

/-- What `read_entrypoint` does on a file of at least 8 bytes with the 32-bit anchor. -/
theorem read_entrypoint_32 (file : List Byte) (h8 : 8 ≤ file.length) (ha : anchor32 <+: file) :
    entry_mode (file.take 8) = some (false, 4) ∧
    read_entrypoint file =
      if rd file 5 < 0x1e ∨ 0x24 ≤ rd file 5 then .error .BadLength
      else if file.length < rd file 5 then .error .Truncated
      else .ok ⟨0, (rdc file 6, rdc file 7, 0), rd16 file 0x16, rd32 file 0x18⟩ := by
  obtain ⟨h0, h1, h2, h3⟩ := (anchor32_iff file h8).1 ha
  have hm : entry_mode (file.take 8) = some (false, 4) := by
    simp [entry_mode, rd_take, h0, h1, h2, h3]
  refine ⟨hm, ?_⟩
  unfold read_entrypoint
  rw [if_neg (by omega), hm]
  simp only [rd_take file 8 5 (by omega)]
  by_cases hl : rd file 5 < 0x1e
  · simp [hl]
  · by_cases hu : 0x24 ≤ rd file 5
    · simp [hl, hu]
    · by_cases ht : file.length < rd file 5
      · have : file.length - 8 < rd file 5 - 8 := by omega
        simp [hl, hu, ht, this]
      · have : ¬ file.length - 8 < rd file 5 - 8 := by omega
        have e6 := rdc_take file (rd file 5) 6 (by omega)
        have e7 := rdc_take file (rd file 5) 7 (by omega)
        have e16 := rd_take file (rd file 5) 0x16 (by omega)
        have e17 := rd_take file (rd file 5) 0x17 (by omega)
        have e18 := rd_take file (rd file 5) 0x18 (by omega)
        have e19 := rd_take file (rd file 5) 0x19 (by omega)
        have e1a := rd_take file (rd file 5) 0x1a (by omega)
        have e1b := rd_take file (rd file 5) 0x1b (by omega)
        simp at e6 e7 e16 e17 e18 e19 e1a e1b
        simp [hl, hu, ht, this, rd16, rd32, e6, e7, e16, e17, e18, e19, e1a, e1b]

/-- What `read_entrypoint` does on a file of at least 8 bytes with the 64-bit anchor. -/
theorem read_entrypoint_64 (file : List Byte) (h8 : 8 ≤ file.length) (ha : anchor64 <+: file) :
    entry_mode (file.take 8) = some (true, 5) ∧
    read_entrypoint file =
      if rd file 6 < 0x18 ∨ 0x24 ≤ rd file 6 then .error .BadLength
      else if file.length < rd file 6 then .error .Truncated
      else .ok ⟨0, (rdc file 7, rdc file 8, rdc file 9), rd32 file 0x0c, rd64 file 0x10⟩ := by
  obtain ⟨h0, h1, h2, h3, h4⟩ := (anchor64_iff file h8).1 ha
  have hm : entry_mode (file.take 8) = some (true, 5) := by
    simp [entry_mode, rd_take, h0, h1, h2, h3, h4]
  refine ⟨hm, ?_⟩
  unfold read_entrypoint
  rw [if_neg (by omega), hm]
  simp only [rd_take file 8 6 (by omega)]
  by_cases hl : rd file 6 < 0x18
  · simp [hl]
  · by_cases hu : 0x24 ≤ rd file 6
    · simp [hl, hu]
    · by_cases ht : file.length < rd file 6
      · have : file.length - 8 < rd file 6 - 8 := by omega
        simp [hl, hu, ht, this]
      · have : ¬ file.length - 8 < rd file 6 - 8 := by omega
        have e : ∀ i, i < 0x18 → rd (file.take (rd file 6)) i = rd file i :=
          fun i hi => rd_take file (rd file 6) i (by omega)
        have ec : ∀ i, i < 0x18 → rdc (file.take (rd file 6)) i = rdc file i :=
          fun i hi => rdc_take file (rd file 6) i (by omega)
        simp [hl, hu, ht, this, rd16, rd32, rd64, e, ec]

/-- What `read_entrypoint` does on a file of at least 8 bytes with neither anchor. -/
theorem read_entrypoint_bad_anchor (file : List Byte) (h8 : 8 ≤ file.length)
    (h32 : ¬ anchor32 <+: file) (h64 : ¬ anchor64 <+: file) :
    read_entrypoint file = .error .BadSignature := by
  rw [anchor32_iff file h8] at h32
  rw [anchor64_iff file h8] at h64
  have hm : entry_mode (file.take 8) = none := by
    simp only [entry_mode, rd_take file 8 0 (by omega), rd_take file 8 1 (by omega),
      rd_take file 8 2 (by omega), rd_take file 8 3 (by omega), rd_take file 8 4 (by omega)]
    split_ifs <;> first | rfl | (exfalso; tauto)
  unfold read_entrypoint
  rw [if_neg (by omega), hm]

theorem anchor_exclusive (file : List Byte) (h32 : anchor32 <+: file) (h64 : anchor64 <+: file) :
    False := by
  obtain ⟨t, rfl⟩ := h32
  obtain ⟨u, hu⟩ := h64
  simp [anchor32, anchor64] at hu

theorem le_bytes_length (k v : Nat) : (le_bytes k v).length = k := by
  induction k generalizing v with
  | zero => rfl
  | succ k ih => simp [le_bytes, ih]

/-- The unsigned values of the `k` bytes from offset `i` on. -/
theorem rd_window (buf : List Byte) (i k : Nat) (w : List Byte)
    (e : (buf.drop i).take k = w) (j : Nat) (hj : j < k) : rd buf (i + j) = rd w j := by
  rw [← e, rd_take _ _ _ hj, rd_drop]

/-- C3: a file that starts with the anchor `_SM_`, whose length byte (offset 5)
is in [0x1E, 0x23] and that has at least that many bytes is parsed: the 32-bit
branch is taken, the version is (byte 6, byte 7, 0), the two bytes that follow
the length byte, held as `char`, `st_len` is the little-endian 16-bit value at
0x16 and `st_addr` the little-endian 32-bit value at 0x18.  A `char` holds its
byte: its value is the byte value below 0x80 and the byte value less 256 from
0x80 on.  So a version of `char` values and a table length and address written
there as bytes are read back. -/
theorem read_entrypoint_32bit_fields (file : List Byte)
    (ha : anchor32 <+: file) (hlo : 0x1E ≤ rd file 5) (hhi : rd file 5 ≤ 0x23)
    (hlen : rd file 5 ≤ file.length) :
    entry_mode (file.take 8) = some (false, 4)
    ∧ read_entrypoint file = .ok
        { len := 0
          version := (rdc file 6, rdc file 7, 0)
          st_len := rd file 0x16 + 256 * rd file 0x17
          st_addr := rd file 0x18 + 256 * rd file 0x19
            + 65536 * (rd file 0x1a + 256 * rd file 0x1b) }
    ∧ (∀ i, (rd file i < 0x80 → rdc file i = rd file i)
        ∧ (0x80 ≤ rd file i → rdc file i = (rd file i : Int) - 256)
        ∧ rdc file i % 256 = rd file i)
    ∧ ∀ (major minor : Int) (table_len table_addr : Nat),
        -128 ≤ major → major < 128 → -128 ≤ minor → minor < 128 →
        table_len < 2 ^ 16 → table_addr < 2 ^ 32 →
        (file.drop 6).take 2 = [char_byte major, char_byte minor] →
        (file.drop 0x16).take 6 = le_bytes 2 table_len ++ le_bytes 4 table_addr →
        read_entrypoint file = .ok
          { len := 0, version := (major, minor, 0)
            st_len := table_len, st_addr := table_addr } := by
  have h8 : 8 ≤ file.length := by omega
  obtain ⟨hm, hr⟩ := read_entrypoint_32 file h8 ha
  have hr2 : read_entrypoint file
      = .ok ⟨0, (rdc file 6, rdc file 7, 0), rd16 file 0x16, rd32 file 0x18⟩ := by
    rw [hr, if_neg (by omega), if_neg (by omega)]
  refine ⟨hm, by simpa [rd16, rd32] using hr2,
    fun i => ⟨(rdc_byte file i).1, (rdc_byte file i).2.1, (rdc_byte file i).2.2.1⟩, ?_⟩
  intro major minor tl ta hm1 hm2 hn1 hn2 htl hta ev e
  rw [hr2]
  have hv := rd_window file 6 2 _ ev
  have v0 : rdc file 6 = major := rdc_char_byte file 6 major hm1 hm2 (hv 0 (by omega))
  have v1 : rdc file 7 = minor := rdc_char_byte file 7 minor hn1 hn2 (hv 1 (by omega))
  rw [v0, v1]
  have hw := rd_window file 0x16 6 _ e
  have hlen6 : (le_bytes 2 tl ++ le_bytes 4 ta).length = 6 := by simp [le_bytes_length]
  have e2 : le_bytes 2 tl = [Fin.ofNat (tl % 256), Fin.ofNat (tl / 256 % 256)] := rfl
  have e4 : le_bytes 4 ta = [Fin.ofNat (ta % 256), Fin.ofNat (ta / 256 % 256),
      Fin.ofNat (ta / 256 / 256 % 256), Fin.ofNat (ta / 256 / 256 / 256 % 256)] := rfl
  rw [e2, e4] at hw
  have w0 : rd file 0x16 = tl % 256 := (hw 0 (by omega)).trans (by simp [rd, Fin.ofNat])
  have w1 : rd file 0x17 = tl / 256 % 256 := (hw 1 (by omega)).trans (by simp [rd, Fin.ofNat])
  have w2 : rd file 0x18 = ta % 256 := (hw 2 (by omega)).trans (by simp [rd, Fin.ofNat])
  have w3 : rd file 0x19 = ta / 256 % 256 := (hw 3 (by omega)).trans (by simp [rd, Fin.ofNat])
  have w4 : rd file 0x1a = ta / 256 / 256 % 256 :=
    (hw 4 (by omega)).trans (by simp [rd, Fin.ofNat])
  have w5 : rd file 0x1b = ta / 256 / 256 / 256 % 256 :=
    (hw 5 (by omega)).trans (by simp [rd, Fin.ofNat])
  have hl : rd16 file 0x16 = tl := by
    simp only [rd16, Nat.reduceAdd]
    norm_num at htl
    omega
  have hadr : rd32 file 0x18 = ta := by
    simp only [rd16, rd32, Nat.reduceAdd]
    norm_num at hta
    omega
  rw [hl, hadr]

/-- C4: a file that starts with the anchor `_SM3_`, whose length byte (offset 6,
after the checksum byte at offset 5) is in [0x18, 0x23] and that has at least
that many bytes is parsed: the 64-bit branch is taken, the version is
(byte 7, byte 8, byte 9), the three bytes that follow the length byte, held as
`char`, `st_len` is the little-endian 32-bit value at 0x0C and `st_addr` the
little-endian 64-bit value at 0x10.  A `char` holds its byte: its value is the
byte value below 0x80 and the byte value less 256 from 0x80 on.  So a version of
`char` values and a table length and address written there as bytes are read
back. -/
theorem read_entrypoint_64bit_fields (file : List Byte)
    (ha : anchor64 <+: file) (hlo : 0x18 ≤ rd file 6) (hhi : rd file 6 ≤ 0x23)
    (hlen : rd file 6 ≤ file.length) :
    entry_mode (file.take 8) = some (true, 5)
    ∧ read_entrypoint file = .ok
        { len := 0
          version := (rdc file 7, rdc file 8, rdc file 9)
          st_len := rd file 0x0c + 256 * rd file 0x0d
            + 65536 * (rd file 0x0e + 256 * rd file 0x0f)
          st_addr := rd file 0x10 + 256 * rd file 0x11
            + 65536 * (rd file 0x12 + 256 * rd file 0x13)
            + 4294967296 * (rd file 0x14 + 256 * rd file 0x15
              + 65536 * (rd file 0x16 + 256 * rd file 0x17)) }
    ∧ (∀ i, (rd file i < 0x80 → rdc file i = rd file i)
        ∧ (0x80 ≤ rd file i → rdc file i = (rd file i : Int) - 256)
        ∧ rdc file i % 256 = rd file i)
    ∧ ∀ (major minor docrev : Int) (table_len table_addr : Nat),
        -128 ≤ major → major < 128 → -128 ≤ minor → minor < 128 →
        -128 ≤ docrev → docrev < 128 →
        table_len < 2 ^ 32 → table_addr < 2 ^ 64 →
        (file.drop 7).take 3 = [char_byte major, char_byte minor, char_byte docrev] →
        (file.drop 0x0c).take 12 = le_bytes 4 table_len ++ le_bytes 8 table_addr →
        read_entrypoint file = .ok
          { len := 0, version := (major, minor, docrev)
            st_len := table_len, st_addr := table_addr } := by
  have h8 : 8 ≤ file.length := by omega
  obtain ⟨hm, hr⟩ := read_entrypoint_64 file h8 ha
  have hr2 : read_entrypoint file
      = .ok ⟨0, (rdc file 7, rdc file 8, rdc file 9), rd32 file 0x0c, rd64 file 0x10⟩ := by
    rw [hr, if_neg (by omega), if_neg (by omega)]
  refine ⟨hm, by simpa [rd16, rd32, rd64] using hr2,
    fun i => ⟨(rdc_byte file i).1, (rdc_byte file i).2.1, (rdc_byte file i).2.2.1⟩, ?_⟩
  intro major minor docrev tl ta hm1 hm2 hn1 hn2 hd1 hd2 htl hta ev e
  rw [hr2]
  have hv := rd_window file 7 3 _ ev
  have v0 : rdc file 7 = major := rdc_char_byte file 7 major hm1 hm2 (hv 0 (by omega))
  have v1 : rdc file 8 = minor := rdc_char_byte file 8 minor hn1 hn2 (hv 1 (by omega))
  have v2 : rdc file 9 = docrev := rdc_char_byte file 9 docrev hd1 hd2 (hv 2 (by omega))
  rw [v0, v1, v2]
  have hw := rd_window file 0x0c 12 _ e
  have e4 : le_bytes 4 tl = [Fin.ofNat (tl % 256), Fin.ofNat (tl / 256 % 256),
      Fin.ofNat (tl / 256 / 256 % 256), Fin.ofNat (tl / 256 / 256 / 256 % 256)] := rfl
  have e8 : le_bytes 8 ta = [Fin.ofNat (ta % 256), Fin.ofNat (ta / 256 % 256),
      Fin.ofNat (ta / 256 / 256 % 256), Fin.ofNat (ta / 256 / 256 / 256 % 256),
      Fin.ofNat (ta / 256 / 256 / 256 / 256 % 256),
      Fin.ofNat (ta / 256 / 256 / 256 / 256 / 256 % 256),
      Fin.ofNat (ta / 256 / 256 / 256 / 256 / 256 / 256 % 256),
      Fin.ofNat (ta / 256 / 256 / 256 / 256 / 256 / 256 / 256 % 256)] := rfl
  rw [e4, e8] at hw
  have w0 : rd file 0x0c = tl % 256 := (hw 0 (by omega)).trans (by simp [rd, Fin.ofNat])
  have w1 : rd file 0x0d = tl / 256 % 256 := (hw 1 (by omega)).trans (by simp [rd, Fin.ofNat])
  have w2 : rd file 0x0e = tl / 256 / 256 % 256 :=
    (hw 2 (by omega)).trans (by simp [rd, Fin.ofNat])
  have w3 : rd file 0x0f = tl / 256 / 256 / 256 % 256 :=
    (hw 3 (by omega)).trans (by simp [rd, Fin.ofNat])
  have w4 : rd file 0x10 = ta % 256 := (hw 4 (by omega)).trans (by simp [rd, Fin.ofNat])
  have w5 : rd file 0x11 = ta / 256 % 256 := (hw 5 (by omega)).trans (by simp [rd, Fin.ofNat])
  have w6 : rd file 0x12 = ta / 256 / 256 % 256 :=
    (hw 6 (by omega)).trans (by simp [rd, Fin.ofNat])
  have w7 : rd file 0x13 = ta / 256 / 256 / 256 % 256 :=
    (hw 7 (by omega)).trans (by simp [rd, Fin.ofNat])
  have w8 : rd file 0x14 = ta / 256 / 256 / 256 / 256 % 256 :=
    (hw 8 (by omega)).trans (by simp [rd, Fin.ofNat])
  have w9 : rd file 0x15 = ta / 256 / 256 / 256 / 256 / 256 % 256 :=
    (hw 9 (by omega)).trans (by simp [rd, Fin.ofNat])
  have w10 : rd file 0x16 = ta / 256 / 256 / 256 / 256 / 256 / 256 % 256 :=
    (hw 10 (by omega)).trans (by simp [rd, Fin.ofNat])
  have w11 : rd file 0x17 = ta / 256 / 256 / 256 / 256 / 256 / 256 / 256 % 256 :=
    (hw 11 (by omega)).trans (by simp [rd, Fin.ofNat])
  have hl : rd32 file 0x0c = tl := by
    simp only [rd16, rd32, Nat.reduceAdd]
    norm_num at htl
    omega
  have hadr : rd64 file 0x10 = ta := by
    simp only [rd16, rd32, rd64, Nat.reduceAdd]
    norm_num at hta
    omega
  rw [hl, hadr]

/-- C5: `read_entrypoint` returns a header exactly when the file has at least 8
bytes, starts with one of the two anchors, its length byte (offset 5 after `_SM_`,
offset 6 after `_SM3_`) is at least 0x1E resp. 0x18 and below 0x24, and the file
has at least that many bytes; otherwise it fails, with the error of the first
of these four checks that does not pass. -/
theorem read_entrypoint_ok_iff (file : List Byte) :
    ((∃ h, read_entrypoint file = .ok h) ↔
      8 ≤ file.length ∧
        ((anchor32 <+: file ∧ 0x1E ≤ rd file 5 ∧ rd file 5 < 0x24 ∧ rd file 5 ≤ file.length)
          ∨ (anchor64 <+: file ∧ 0x18 ≤ rd file 6 ∧ rd file 6 < 0x24
              ∧ rd file 6 ≤ file.length)))
    ∧ (file.length < 8 → read_entrypoint file = .error .TooShort)
    ∧ (8 ≤ file.length → ¬ anchor32 <+: file → ¬ anchor64 <+: file →
        read_entrypoint file = .error .BadSignature)
    ∧ (8 ≤ file.length → anchor32 <+: file → ¬ (0x1E ≤ rd file 5 ∧ rd file 5 < 0x24) →
        read_entrypoint file = .error .BadLength)
    ∧ (8 ≤ file.length → anchor64 <+: file → ¬ (0x18 ≤ rd file 6 ∧ rd file 6 < 0x24) →
        read_entrypoint file = .error .BadLength)
    ∧ (8 ≤ file.length → anchor32 <+: file → 0x1E ≤ rd file 5 → rd file 5 < 0x24 →
        file.length < rd file 5 → read_entrypoint file = .error .Truncated)
    ∧ (8 ≤ file.length → anchor64 <+: file → 0x18 ≤ rd file 6 → rd file 6 < 0x24 →
        file.length < rd file 6 → read_entrypoint file = .error .Truncated) := by
  have hshort : file.length < 8 → read_entrypoint file = .error .TooShort := by
    intro h
    simp [read_entrypoint, h]
  refine ⟨?_, hshort, read_entrypoint_bad_anchor file, ?_, ?_, ?_, ?_⟩
  · by_cases h8 : 8 ≤ file.length
    · by_cases h32 : anchor32 <+: file
      · have h64 : ¬ anchor64 <+: file := fun h => anchor_exclusive file h32 h
        rw [(read_entrypoint_32 file h8 h32).2]
        split_ifs with c1 c2
        · simp [h8, h32, h64]; omega
        · simp [h8, h32, h64]; omega
        · simp [h8, h32, h64]; omega
      · by_cases h64 : anchor64 <+: file
        · rw [(read_entrypoint_64 file h8 h64).2]
          split_ifs with c1 c2
          · simp [h8, h32, h64]; omega
          · simp [h8, h32, h64]; omega
          · simp [h8, h32, h64]; omega
        · rw [read_entrypoint_bad_anchor file h8 h32 h64]
          simp [h32, h64]
    · rw [hshort (by omega)]
      simp [h8]
  · intro h8 ha hl
    rw [(read_entrypoint_32 file h8 ha).2, if_pos (by omega)]
  · intro h8 ha hl
    rw [(read_entrypoint_64 file h8 ha).2, if_pos (by omega)]
  · intro h8 ha h1 h2 h3
    rw [(read_entrypoint_32 file h8 ha).2, if_neg (by omega), if_pos h3]
  · intro h8 ha h1 h2 h3
    rw [(read_entrypoint_64 file h8 ha).2, if_neg (by omega), if_pos h3]

/-! ## The walk: progress, fuel, composition -/

theorem skip_string_ge (buf : List Byte) (pend fuel p : Nat) :
    p ≤ skip_string buf pend fuel p := by
  induction fuel generalizing p with
  | zero => simp [skip_string]
  | succ f ih =>
    simp only [skip_string]
    split_ifs
    · exact Nat.le_of_succ_le (ih (p + 1))
    · omega
    · exact Nat.le_refl p

theorem skip_string_le (buf : List Byte) (pend fuel p : Nat) (h : p ≤ pend) :
    skip_string buf pend fuel p ≤ pend := by
  induction fuel generalizing p with
  | zero => simpa [skip_string] using h
  | succ f ih =>
    simp only [skip_string]
    split_ifs with h1 h2
    · exact ih (p + 1) h1
    · omega
    · exact h

theorem scan_strings_bounds (buf : List Byte) (pend k n p p2 : Nat) (ss : List (Option Nat))
    (h : scan_strings buf pend k n p = .ok (p2, ss)) : p ≤ p2 ∧ (p ≤ pend → p2 ≤ pend) := by
  induction k generalizing n p p2 ss with
  | zero =>
    simp only [scan_strings, Except.ok.injEq, Prod.mk.injEq] at h
    obtain ⟨rfl, -⟩ := h
    exact ⟨Nat.le_refl _, id⟩
  | succ k ih =>
    simp only [scan_strings] at h
    split_ifs at h with h1 h2 h3
    · split at h
      · cases h
      · rename_i q strs e
        simp only [Except.ok.injEq, Prod.mk.injEq] at h
        obtain ⟨rfl, -⟩ := h
        have := ih _ _ _ _ e
        have g := skip_string_ge buf pend (pend - (p + 1)) (p + 1)
        have l := skip_string_le buf pend (pend - (p + 1)) (p + 1) (by omega)
        exact ⟨by omega, fun _ => this.2 l⟩
    · simp only [Except.ok.injEq, Prod.mk.injEq] at h
      obtain ⟨rfl, -⟩ := h
      exact ⟨by omega, fun _ => by omega⟩
    · split at h
      · cases h
      · rename_i q strs e
        simp only [Except.ok.injEq, Prod.mk.injEq] at h
        obtain ⟨rfl, -⟩ := h
        have := ih _ _ _ _ e
        exact ⟨by omega, fun _ => this.2 (by omega)⟩

theorem slot_check_next (buf : List Byte) (qbdf : pci_bdf) (start type len pcur ret p r : Nat)
    (strings : List (Option Nat)) (o : List Output)
    (h : slot_check buf qbdf start type len pcur strings ret = .next p r o) : p = pcur := by
  unfold slot_check at h
  simp only at h
  split_ifs at h <;> simp only [Step.next.injEq, reduceCtorEq] at h <;> exact h.1.symm

/-- The loop body when the record passes the two length tests and its string
area is scanned without error. -/
theorem loop_body_ok (buf : List Byte) (pend : Nat) (qbdf : pci_bdf) (s ret q : Nat)
    (strs : List (Option Nat)) (h1 : 4 ≤ rd buf (s + 1)) (h2 : s + rd buf (s + 1) < pend)
    (e : scan_strings buf pend 255 0 (s + rd buf (s + 1)) = .ok (q, strs)) :
    loop_body buf pend qbdf s ret
      = slot_check buf qbdf s (rd buf s) (rd buf (s + 1)) q strs ret := by
  unfold loop_body
  simp only [if_neg (Nat.not_lt.2 h1), ge_iff_le, if_neg (Nat.not_le.2 h2), e]

theorem loop_body_next (buf : List Byte) (pend : Nat) (qbdf : pci_bdf) (s ret p r : Nat)
    (o : List Output) (h : loop_body buf pend qbdf s ret = .next p r o) :
    s + 4 ≤ p ∧ p ≤ pend := by
  by_cases h1 : rd buf (s + 1) < 4
  · simp [loop_body, h1] at h
  by_cases h2 : s + rd buf (s + 1) ≥ pend
  · simp [loop_body, h1, h2] at h
  cases e : scan_strings buf pend 255 0 (s + rd buf (s + 1)) with
  | error er => simp [loop_body, h1, h2, e] at h
  | ok v =>
    obtain ⟨q, strs⟩ := v
    rw [loop_body_ok buf pend qbdf s ret q strs (by omega) (by omega) e] at h
    have hp := slot_check_next _ _ _ _ _ _ _ _ _ _ _ h
    have b := scan_strings_bounds buf pend 255 0 _ _ _ e
    subst hp
    exact ⟨by omega, b.2 (by omega)⟩

theorem walk_mono (buf : List Byte) (pend : Nat) (qbdf : pci_bdf) (f f2 s ret : Nat) (r : Result)
    (h : walk buf pend qbdf f s ret = some r) (hf : f ≤ f2) :
    walk buf pend qbdf f2 s ret = some r := by
  induction f generalizing f2 s ret r with
  | zero => simp [walk] at h
  | succ f ih =>
    obtain ⟨g, rfl⟩ : ∃ g, f2 = g + 1 := ⟨f2 - 1, by omega⟩
    simp only [walk] at h ⊢
    split_ifs at h ⊢ with h1
    · split at h
      · exact h
      · exact h
      · rename_i p r1 o e
        simp only [Option.map_eq_some'] at h ⊢
        obtain ⟨r0, h0, rfl⟩ := h
        exact ⟨r0, ih g _ _ _ h0 (by omega), rfl⟩
    · exact h

theorem walk_total (buf : List Byte) (pend : Nat) (qbdf : pci_bdf) (f s ret : Nat)
    (hs : s ≤ pend) (hf : pend < s + f) : ∃ r, walk buf pend qbdf f s ret = some r := by
  induction f generalizing s ret with
  | zero => omega
  | succ f ih =>
    simp only [walk]
    split_ifs with h1
    · split
      · exact ⟨_, rfl⟩
      · exact ⟨_, rfl⟩
      · rename_i p r1 o e
        have := loop_body_next _ _ _ _ _ _ _ _ e
        obtain ⟨r0, h0⟩ := ih p r1 this.2 (by omega)
        exact ⟨prepend o r0, by simp [h0]⟩
    · exact ⟨_, rfl⟩

theorem prepend_prepend (o out : List Output) (r : Result) :
    prepend o (prepend out r) = prepend (o ++ out) r := by
  simp [prepend]

theorem Steps.trans {buf : List Byte} {pend : Nat} {qbdf : pci_bdf} {a ra b rb c rc : Nat}
    {o1 o2 : List Output} (h1 : Steps buf pend qbdf a ra o1 b rb)
    (h2 : Steps buf pend qbdf b rb o2 c rc) : Steps buf pend qbdf a ra (o1 ++ o2) c rc := by
  induction h1 with
  | refl => simpa using h2
  | head hlt hb _ ih =>
    rw [List.append_assoc]
    exact Steps.head hlt hb (ih h2)

theorem Steps.one {buf : List Byte} {pend : Nat} {qbdf : pci_bdf} {s ret s1 ret1 : Nat}
    {o : List Output} (hlt : s + 4 < pend) (hb : loop_body buf pend qbdf s ret = .next s1 ret1 o) :
    Steps buf pend qbdf s ret o s1 ret1 := by
  simpa using Steps.head hlt hb (Steps.refl s1 ret1)

/-- The walk from an earlier loop head is what was printed up to a later loop
head, followed by the walk from there. -/
theorem walk_of_steps {buf : List Byte} {pend : Nat} {qbdf : pci_bdf} {a ra b rb : Nat}
    {out : List Output} (h : Steps buf pend qbdf a ra out b rb) (f : Nat) (r : Result)
    (hr : walk buf pend qbdf f b rb = some r) :
    ∃ f2, walk buf pend qbdf f2 a ra = some (prepend out r) := by
  induction h with
  | refl => exact ⟨f, by simpa [prepend] using hr⟩
  | head hlt hb _ ih =>
    obtain ⟨f2, h2⟩ := ih hr
    refine ⟨f2 + 1, ?_⟩
    simp only [walk, if_pos hlt, hb, h2, Option.map_some', prepend_prepend]

/-- The run of `decode_dmi` on a file that holds the declared number of bytes:
when a loop head is reached, its result is what was printed so far followed by
what the walk from that loop head gives, for any sufficient bound. -/
theorem decode_dmi_of_reached (file : List Byte) (len : Nat) (qbdf : pci_bdf)
    (hlen : len ≤ file.length) (s ret : Nat) (out : List Output)
    (h : Reached (file.take len) len qbdf s ret out) (f : Nat) (r : Result)
    (hr : walk (file.take len) len qbdf f s ret = some r) :
    decode_dmi file len qbdf = some (prepend out r) := by
  obtain ⟨f2, h2⟩ := walk_of_steps h f r hr
  obtain ⟨r3, h3⟩ := walk_total (file.take len) len qbdf (len + 1) 0 2 (by omega) (by omega)
  have e1 := walk_mono _ _ _ _ (max f2 (len + 1)) _ _ _ h2 (le_max_left _ _)
  have e2 := walk_mono _ _ _ _ (max f2 (len + 1)) _ _ _ h3 (le_max_right _ _)
  rw [e1] at e2
  simp only [decode_dmi, if_neg (Nat.not_lt.2 hlen), h3]
  exact e2.symm

/-- The run of `decode_dmi` always ends: the bound on the number of passes is
never reached. -/
theorem decode_dmi_total (file : List Byte) (len : Nat) (qbdf : pci_bdf) :
    ∃ r, decode_dmi file len qbdf = some r := by
  unfold decode_dmi
  split_ifs
  · exact ⟨_, rfl⟩
  · exact walk_total _ _ _ _ _ _ (Nat.zero_le _) (by omega)

/-! ## Walking a well-formed record -/

theorem rd_at_length (a rest : List Byte) (b : Byte) : rd (a ++ b :: rest) a.length = b.val := by
  have := rd_append_right a (b :: rest) 0
  simpa [rd_cons_zero] using this

theorem skip_string_str (cs : List Byte) (a rest : List Byte) (fuel pend : Nat)
    (hnz : ∀ c ∈ cs, c ≠ 0) (hf : cs.length < fuel) (hp : a.length + cs.length < pend) :
    skip_string (a ++ cs ++ 0 :: rest) pend fuel a.length = a.length + cs.length + 1 := by
  induction cs generalizing a fuel with
  | nil =>
    obtain ⟨f, rfl⟩ : ∃ f, fuel = f + 1 := ⟨fuel - 1, by simp at hf; omega⟩
    simp only [List.length_nil, Nat.add_zero] at hp
    simp [skip_string, hp, rd_at_length]
  | cons c cs ih =>
    obtain ⟨f, rfl⟩ : ∃ f, fuel = f + 1 := ⟨fuel - 1, by simp at hf; omega⟩
    simp only [List.length_cons] at hp hf
    have hc : c.val ≠ 0 := fun h => hnz c (List.mem_cons_self _ _) (Fin.ext h)
    have e : a ++ c :: cs ++ 0 :: rest = a ++ c :: (cs ++ 0 :: rest) := by simp
    have h2 := ih (a ++ [c]) f (fun x hx => hnz x (List.mem_cons_of_mem _ hx)) (by omega)
      (by simp; omega)
    simp only [List.append_assoc, List.singleton_append, List.length_append, List.length_singleton,
      List.cons_append, List.nil_append] at h2
    rw [skip_string, if_pos (by omega), e, rd_at_length, if_pos hc]
    simp only [List.append_assoc, List.length_cons]
    rw [h2]
    omega

theorem cstr_at (a s rest : List Byte) (hnz : ∀ c ∈ s, c ≠ 0) :
    cstr (a ++ s ++ 0 :: rest) a.length = s := by
  unfold cstr
  rw [List.append_assoc, List.drop_left]
  induction s with
  | nil => simp [List.takeWhile]
  | cons c cs ih =>
    have hc : c ≠ 0 := hnz c (List.mem_cons_self _ _)
    simp only [List.cons_append, List.takeWhile, ne_eq, hc, not_false_eq_true, decide_True,
      List.cons.injEq, true_and]
    exact ih (fun x hx => hnz x (List.mem_cons_of_mem _ hx))

theorem str_bytes_length_pos (s : List Byte) (ss : List (List Byte)) :
    s.length + 1 ≤ (str_bytes (s :: ss)).length := by
  simp [str_bytes]

/-- The string loop over terminated strings and the closing zero. -/
theorem scan_strings_strs (ss : List (List Byte)) (a rest : List Byte) (k n pend : Nat)
    (hwf : ∀ s ∈ ss, s ≠ [] ∧ ∀ c ∈ s, c ≠ 0) (hk : ss.length < k)
    (hn : ss = [] → n ≠ 0) (hp : a.length + (str_bytes ss).length < pend) :
    scan_strings (a ++ str_bytes ss ++ 0 :: rest) pend k n a.length
      = .ok (a.length + (str_bytes ss).length + 1, str_ptrs a.length ss) := by
  induction ss generalizing a k n with
  | nil =>
    obtain ⟨j, rfl⟩ : ∃ j, k = j + 1 := ⟨k - 1, by simp at hk; omega⟩
    simp only [str_bytes, List.length_nil, Nat.add_zero] at hp
    simp [scan_strings, str_bytes, str_ptrs, rd_at_length, hn rfl, Nat.not_le.2 hp]
  | cons s ss ih =>
    obtain ⟨j, rfl⟩ : ∃ j, k = j + 1 := ⟨k - 1, by simp at hk; omega⟩
    obtain ⟨hs, hnz⟩ := hwf s (List.mem_cons_self _ _)
    obtain ⟨c, cs, rfl⟩ := List.exists_cons_of_ne_nil hs
    have hc : c.val ≠ 0 := fun h => hnz c (List.mem_cons_self _ _) (Fin.ext h)
    have hlen : (str_bytes ((c :: cs) :: ss)).length = cs.length + 2 + (str_bytes ss).length := by
      simp [str_bytes]; omega
    rw [hlen] at hp
    have e1 : a ++ str_bytes ((c :: cs) :: ss) ++ 0 :: rest
        = a ++ c :: (cs ++ 0 :: (str_bytes ss ++ 0 :: rest)) := by simp [str_bytes]
    have e2 : a ++ str_bytes ((c :: cs) :: ss) ++ 0 :: rest
        = (a ++ [c]) ++ cs ++ 0 :: (str_bytes ss ++ 0 :: rest) := by simp [str_bytes]
    have e3 : a ++ str_bytes ((c :: cs) :: ss) ++ 0 :: rest
        = (a ++ c :: cs ++ [0]) ++ str_bytes ss ++ 0 :: rest := by simp [str_bytes]
    have hskip : skip_string (a ++ str_bytes ((c :: cs) :: ss) ++ 0 :: rest) pend
        (pend - (a.length + 1)) (a.length + 1) = a.length + cs.length + 2 := by
      have := skip_string_str cs (a ++ [c]) (str_bytes ss ++ 0 :: rest) (pend - (a.length + 1)) pend
        (fun x hx => hnz x (List.mem_cons_of_mem _ hx)) (by omega) (by simp; omega)
      rw [e2, List.length_append, List.length_singleton] at *
      rw [this]
      omega
    have hrec := ih (a ++ c :: cs ++ [0]) j (n + 1)
      (fun x hx => hwf x (List.mem_cons_of_mem _ hx)) (by simp at hk; omega) (fun _ => by omega)
      (by simp; omega)
    have hl : (a ++ c :: cs ++ [0]).length = a.length + cs.length + 2 := by simp; omega
    rw [hl, ← e3] at hrec
    rw [scan_strings, if_neg (by omega)]
    rw [show rd (a ++ str_bytes ((c :: cs) :: ss) ++ 0 :: rest) a.length = c.val from by
      rw [e1, rd_at_length]]
    rw [if_pos hc, hskip, hrec, hlen]
    simp only [str_ptrs, List.length_cons]
    congr 2
    omega

theorem str_ptrs_lookup (ss : List (List Byte)) (a rest : List Byte) (j : Nat)
    (hwf : ∀ s ∈ ss, s ≠ [] ∧ ∀ c ∈ s, c ≠ 0) :
    ((str_ptrs a.length ss).getD j none).map (cstr (a ++ str_bytes ss ++ 0 :: rest)) = ss[j]? := by
  induction ss generalizing a j with
  | nil => simp [str_ptrs]
  | cons s ss ih =>
    have e : a ++ str_bytes (s :: ss) ++ 0 :: rest
        = a ++ s ++ 0 :: (str_bytes ss ++ 0 :: rest) := by simp [str_bytes]
    cases j with
    | zero =>
      simp only [str_ptrs, List.getD_cons_zero, Option.map_some', List.getElem?_cons_zero]
      rw [e, cstr_at a s _ (hwf s (List.mem_cons_self _ _)).2]
    | succ j =>
      have h := ih (a ++ s ++ [0]) j (fun x hx => hwf x (List.mem_cons_of_mem _ hx))
      have hl : (a ++ s ++ [0]).length = a.length + s.length + 1 := by simp [Nat.add_assoc]
      have e2 : a ++ s ++ [0] ++ str_bytes ss ++ 0 :: rest
          = a ++ str_bytes (s :: ss) ++ 0 :: rest := by simp [str_bytes]
      rw [hl, e2] at h
      simpa [str_ptrs] using h

/-- The string loop over the string area of a record with at most 254 strings:
the cursor ends behind the area and `entry.strings` points at the strings. -/
theorem scan_strings_area (ss : List (List Byte)) (a rest : List Byte)
    (hwf : ∀ s ∈ ss, s ≠ [] ∧ ∀ c ∈ s, c ≠ 0) (hk : ss.length ≤ 254) :
    scan_strings (a ++ str_area ss ++ rest) (a ++ str_area ss ++ rest).length 255 0 a.length
      = .ok (a.length + (str_area ss).length,
          if ss = [] then [none] else str_ptrs a.length ss) := by
  by_cases h : ss = []
  · subst h
    have e : a ++ str_area [] ++ rest = a ++ 0 :: 0 :: rest := by simp [str_area]
    have e2 : a ++ 0 :: 0 :: rest = (a ++ [0]) ++ 0 :: rest := by simp
    have r1 : rd (a ++ 0 :: 0 :: rest) a.length = 0 := by rw [rd_at_length]; rfl
    have r2 : rd (a ++ 0 :: 0 :: rest) (a.length + 1) = 0 := by
      rw [e2]
      have := rd_at_length (a ++ [0]) rest 0
      simpa using this
    rw [e]
    simp [scan_strings, r1, r2, str_area]
  · have e : a ++ str_area ss ++ rest = a ++ str_bytes ss ++ 0 :: rest := by simp [str_area, h]
    have hl : (str_area ss).length = (str_bytes ss).length + 1 := by simp [str_area, h]
    rw [e, scan_strings_strs ss a rest 255 0 _ hwf (by omega) (fun x => absurd x h) (by simp),
      hl, if_neg h]
    rfl

theorem slot_name_of_area (ss : List (List Byte)) (a rest : List Byte) (i : Nat)
    (hwf : ∀ s ∈ ss, s ≠ [] ∧ ∀ c ∈ s, c ≠ 0) (hk : ss.length ≤ 254) :
    (slot_name_of (if ss = [] then [none] else str_ptrs a.length ss) i).map
        (cstr (a ++ str_area ss ++ rest))
      = if i = 0 then none else ss[i - 1]? := by
  by_cases hi : i = 0
  · simp [slot_name_of, hi]
  by_cases h : ss = []
  · subst h
    simp only [slot_name_of, if_true, if_neg hi]
    split_ifs with h2
    · cases hj : i - 1 with
      | zero => simp
      | succ j => simp
    · simp
  · have e : a ++ str_area ss ++ rest = a ++ str_bytes ss ++ 0 :: rest := by simp [str_area, h]
    rw [if_neg h, if_neg hi, e]
    simp only [slot_name_of]
    split_ifs with h2
    · exact str_ptrs_lookup ss a rest (i - 1) hwf
    · have : ss.length ≤ i - 1 := by omega
      simp [List.getElem?_eq_none this]

theorem pci_slot_type_iff (t : Nat) : pci_slot_type t = true ↔ pci_bearing t := by
  simp [pci_slot_type, pci_bearing]
  omega

theorem shr3_eq_div (n : Nat) : n >>> 3 = n / 8 := by
  simpa using Nat.shiftRight_eq_div_pow n 3

theorem and7_eq_mod (n : Nat) : n &&& 7 = n % 8 := by
  simpa using Nat.and_pow_two_sub_one_eq_mod n 3

theorem str_area_length_pos (ss : List (List Byte)) : 2 ≤ (str_area ss).length := by
  unfold str_area
  split_ifs with h
  · simp
  · obtain ⟨s, t, rfl⟩ := List.exists_cons_of_ne_nil h
    simp [str_bytes]
    omega

theorem Rec.encode_length (r : Rec) :
    r.encode.length = r.body.length + 4 + (str_area r.strings).length := by
  simp [Rec.encode]
  omega

/-- Reading inside a record that sits in a buffer behind `a`. -/
theorem rd_record (r : Rec) (a post : List Byte) (i : Nat) (hi : i < r.encode.length) :
    rd (a ++ r.encode ++ post) (a.length + i) = rd r.encode i := by
  rw [List.append_assoc, rd_append_right, rd_append_left _ _ _ hi]

/-- One pass of the loop body over a well-formed record with at most 254
strings: the cursor moves to the end of the record, and the record is printed
or matched exactly when it is a type-9 record of length at least 0x10 with a
PCI-bearing slot type. -/
theorem loop_body_record (r : Rec) (a post : List Byte) (qbdf : pci_bdf) (ret : Nat)
    (hwf : r.WellFormed) (hk : r.strings.length ≤ 254) :
    loop_body (a ++ r.encode ++ post) (a ++ r.encode ++ post).length qbdf a.length ret
      = if r.decodable then
          if qbdf.all then .next (a.length + r.encode.length) 0 [r.entry]
          else if r.matches qbdf then .brk [.name r.slot_name] 0
          else .next (a.length + r.encode.length) ret []
        else .next (a.length + r.encode.length) ret [] := by
  obtain ⟨h4, hbody, -, hstr⟩ := hwf
  have hsa := str_area_length_pos r.strings
  have hel := r.encode_length
  have hrd := rd_record r a post
  have r0 : rd (a ++ r.encode ++ post) a.length = r.type.val := by
    have := hrd 0 (by omega)
    simpa [Rec.encode, rd_cons_zero] using this
  have r1 : rd (a ++ r.encode ++ post) (a.length + 1) = r.declared_len.val := by
    have := hrd 1 (by omega)
    simpa [Rec.encode, rd_cons_succ, rd_cons_zero] using this
  -- the formatted area and the buffer split at its end
  have hF : (a ++ r.type :: r.declared_len :: r.handle_lo :: r.handle_hi :: r.body).length
      = a.length + r.declared_len.val := by
    simp only [List.length_append, List.length_cons]
    omega
  have hbuf : a ++ r.encode ++ post
      = (a ++ r.type :: r.declared_len :: r.handle_lo :: r.handle_hi :: r.body)
          ++ str_area r.strings ++ post := by
    simp [Rec.encode]
  have hscan := scan_strings_area r.strings
    (a ++ r.type :: r.declared_len :: r.handle_lo :: r.handle_hi :: r.body) post hstr hk
  rw [← hbuf, hF] at hscan
  have hend : a.length + r.declared_len.val + (str_area r.strings).length
      = a.length + r.encode.length := by omega
  rw [hend] at hscan
  have hname := slot_name_of_area r.strings
    (a ++ r.type :: r.declared_len :: r.handle_lo :: r.handle_hi :: r.body) post
    (rd r.encode 0x04) hstr hk
  rw [← hbuf, hF] at hname
  have hlt : a.length + rd (a ++ r.encode ++ post) (a.length + 1)
      < (a ++ r.encode ++ post).length := by
    rw [r1]
    simp only [List.length_append]
    omega
  rw [loop_body_ok _ _ qbdf a.length ret _ _ (by rw [r1]; exact h4) hlt (by rw [r1]; exact hscan)]
  rw [r0, r1]
  unfold slot_check
  by_cases hd : r.decodable
  · obtain ⟨ht, hl, hp⟩ := hd
    have e4 := hrd 0x04 (by omega)
    have e5 := hrd 0x05 (by omega)
    have ed := hrd 0x0d (by omega)
    have ee := hrd 0x0e (by omega)
    have ef := hrd 0x0f (by omega)
    have e10 := hrd 0x10 (by omega)
    rw [if_pos ht, if_pos (show r.decodable from ⟨ht, hl, hp⟩)]
    simp only [e4, e5, ed, ee, ef, e10, rd16, Nat.add_assoc, Nat.reduceAdd, hname]
    rw [if_neg (by omega), if_pos ((pci_slot_type_iff _).2 hp)]
    simp only [shr3_eq_div, and7_eq_mod, Rec.entry, Rec.slot_name, Rec.matches]
    by_cases hall : qbdf.all = true
    · simp [hall]
    · simp only [hall, Bool.false_eq_true, if_false]
      by_cases hm : rd r.encode 13 + 256 * rd r.encode 14 = qbdf.segment
          ∧ rd r.encode 15 = qbdf.bus ∧ rd r.encode 16 / 8 = qbdf.dev
          ∧ rd r.encode 16 % 8 = qbdf.fn
      · rw [if_pos hm, if_pos ⟨hm.2.1, hm.1, hm.2.2⟩]
      · rw [if_neg hm, if_neg (fun h => hm ⟨h.2.1, h.1, h.2.2⟩)]
  · rw [if_neg hd]
    by_cases ht : r.type.val = 9
    · rw [if_pos ht]
      by_cases hl : r.declared_len.val < 0x10
      · simp only [if_pos hl]
      · have e5 := hrd 0x05 (by omega)
        have hp : ¬ pci_slot_type (rd r.encode 0x05) = true := fun h =>
          hd ⟨ht, by omega, (pci_slot_type_iff _).1 h⟩
        simp only [if_neg hl, e5, hp, Bool.false_eq_true, if_false]
    · rw [if_neg ht]

/-! ## Walking a table of well-formed records -/

theorem entries_cons (r : Rec) (rs : List Rec) :
    entries (r :: rs) = if r.decodable then r.entry :: entries rs else entries rs := by
  unfold entries
  by_cases h : r.decodable <;> simp [List.filter, h]

theorem Rec.encode_length_ge (r : Rec) : 6 ≤ r.encode.length := by
  have := str_area_length_pos r.strings
  have := r.encode_length
  omega

/-- In `-a` mode the walk over well-formed records with at most 254 strings each
prints their lines and arrives behind them; `ret` is 0 once a line was printed. -/
theorem steps_table_all (rs : List Rec) (a post : List Byte) (qbdf : pci_bdf) (ret : Nat)
    (hall : qbdf.all = true) (hwf : ∀ r ∈ rs, r.WellFormed ∧ r.strings.length ≤ 254) :
    Steps (a ++ table rs ++ post) (a ++ table rs ++ post).length qbdf a.length ret
      (entries rs) (a.length + (table rs).length) (if entries rs = [] then ret else 0) := by
  induction rs generalizing a ret with
  | nil => simpa [table, entries] using Steps.refl a.length ret
  | cons r rs ih =>
    obtain ⟨hr, hk⟩ := hwf r (List.mem_cons_self _ _)
    have e1 : a ++ table (r :: rs) ++ post = a ++ r.encode ++ (table rs ++ post) := by
      simp [table]
    have e2 : a ++ table (r :: rs) ++ post = (a ++ r.encode) ++ table rs ++ post := by
      simp [table]
    have hge := r.encode_length_ge
    have hlt : a.length + 4 < (a ++ table (r :: rs) ++ post).length := by
      rw [e1]; simp only [List.length_append]; omega
    have hb := loop_body_record r a (table rs ++ post) qbdf ret hr hk
    rw [← e1] at hb
    have hend : a.length + (table (r :: rs)).length
        = (a ++ r.encode).length + (table rs).length := by
      simp [table]; omega
    rw [hend, entries_cons]
    by_cases hd : r.decodable
    · rw [if_pos hd, if_pos hall] at hb
      have h2 := ih (a ++ r.encode) 0 (fun x hx => hwf x (List.mem_cons_of_mem _ hx))
      rw [← e2, List.length_append a r.encode] at h2
      have h3 := Steps.head hlt hb h2
      rw [List.length_append a r.encode]
      simpa [hd] using h3
    · rw [if_neg hd] at hb
      have h2 := ih (a ++ r.encode) ret (fun x hx => hwf x (List.mem_cons_of_mem _ hx))
      rw [← e2, List.length_append a r.encode] at h2
      have h3 := Steps.head hlt hb h2
      rw [List.length_append a r.encode]
      simpa [hd] using h3

/-- With an address queried, the walk over well-formed records with at most
254 strings each, none of which is a record of interest with that address,
prints nothing and arrives behind them with `ret` unchanged. -/
theorem steps_table_exact (rs : List Rec) (a post : List Byte) (qbdf : pci_bdf) (ret : Nat)
    (hall : qbdf.all = false) (hwf : ∀ r ∈ rs, r.WellFormed ∧ r.strings.length ≤ 254)
    (hno : ∀ r ∈ rs, ¬ (r.decodable ∧ r.matches qbdf)) :
    Steps (a ++ table rs ++ post) (a ++ table rs ++ post).length qbdf a.length ret
      [] (a.length + (table rs).length) ret := by
  induction rs generalizing a with
  | nil => simpa [table] using Steps.refl a.length ret
  | cons r rs ih =>
    obtain ⟨hr, hk⟩ := hwf r (List.mem_cons_self _ _)
    have e1 : a ++ table (r :: rs) ++ post = a ++ r.encode ++ (table rs ++ post) := by
      simp [table]
    have e2 : a ++ table (r :: rs) ++ post = (a ++ r.encode) ++ table rs ++ post := by
      simp [table]
    have hge := r.encode_length_ge
    have hlt : a.length + 4 < (a ++ table (r :: rs) ++ post).length := by
      rw [e1]; simp only [List.length_append]; omega
    have hb := loop_body_record r a (table rs ++ post) qbdf ret hr hk
    rw [← e1] at hb
    have hend : a.length + (table (r :: rs)).length
        = (a ++ r.encode).length + (table rs).length := by
      simp [table]; omega
    have hnr := hno r (List.mem_cons_self _ _)
    have hb2 : loop_body (a ++ table (r :: rs) ++ post) (a ++ table (r :: rs) ++ post).length
        qbdf a.length ret = .next (a.length + r.encode.length) ret [] := by
      rw [hb]
      by_cases hd : r.decodable
      · have hm : ¬ r.matches qbdf := fun h => hnr ⟨hd, h⟩
        simp [hd, hall, hm]
      · simp [hd]
    have h2 := ih (a ++ r.encode) (fun x hx => hwf x (List.mem_cons_of_mem _ hx))
      (fun x hx => hno x (List.mem_cons_of_mem _ hx))
    rw [← e2, List.length_append a r.encode] at h2
    rw [hend, List.length_append a r.encode]
    exact Steps.head hlt hb2 h2

/-- The walk ends with `return ret` at a loop head where at most 4 bytes remain. -/
theorem walk_at_end (buf : List Byte) (pend : Nat) (qbdf : pci_bdf) (s ret : Nat)
    (h : ¬ s + 4 < pend) : walk buf pend qbdf 1 s ret = some ⟨[], .returned ret⟩ := by
  simp [walk, h]

/-- In `-a` mode a table of well-formed records with at most 254 strings each
is walked to its end without error: exactly the lines of the records of
interest are printed, in table order, and the return value is 0 when there is
such a line and 2 when there is none. -/
theorem decode_dmi_table_all (rs : List Rec) (qbdf : pci_bdf) (hall : qbdf.all = true)
    (hwf : ∀ r ∈ rs, r.WellFormed ∧ r.strings.length ≤ 254) :
    decode_dmi (table rs) (table rs).length qbdf
      = some ⟨entries rs, .returned (if entries rs = [] then 2 else 0)⟩ := by
  have hs := steps_table_all rs [] [] qbdf 2 hall hwf
  simp only [List.nil_append, List.append_nil, List.length_nil, Nat.zero_add] at hs
  have ht : (table rs).take (table rs).length = table rs := List.take_length _
  have hr : Reached ((table rs).take (table rs).length) (table rs).length qbdf
      (table rs).length (if entries rs = [] then 2 else 0) (entries rs) := by
    rw [ht]; exact hs
  have hw := walk_at_end ((table rs).take (table rs).length) (table rs).length qbdf
    (table rs).length (if entries rs = [] then 2 else 0) (by omega)
  have := decode_dmi_of_reached (table rs) (table rs).length qbdf (Nat.le_refl _) _ _ _ hr 1 _ hw
  simpa [prepend] using this

/-- With an address queried, a table of well-formed records with at most 254
strings each gives the slot name of the first record of interest with that
address and return value 0, whatever follows that record; and nothing and
return value 2 when there is no such record. -/
theorem decode_dmi_table_exact (qbdf : pci_bdf) (hall : qbdf.all = false) :
    (∀ (rs : List Rec) (r : Rec) (rest : List Byte),
      (∀ x ∈ rs, x.WellFormed ∧ x.strings.length ≤ 254) →
      (∀ x ∈ rs, ¬ (x.decodable ∧ x.matches qbdf)) →
      r.WellFormed → r.strings.length ≤ 254 → r.decodable → r.matches qbdf →
      decode_dmi (table rs ++ r.encode ++ rest) (table rs ++ r.encode ++ rest).length qbdf
        = some ⟨[.name r.slot_name], .returned 0⟩)
    ∧ (∀ rs : List Rec, (∀ x ∈ rs, x.WellFormed ∧ x.strings.length ≤ 254) →
      (∀ x ∈ rs, ¬ (x.decodable ∧ x.matches qbdf)) →
      decode_dmi (table rs) (table rs).length qbdf = some ⟨[], .returned 2⟩) := by
  constructor
  · intro rs r rest hwf hno hr hk hd hm
    have hs := steps_table_exact rs [] (r.encode ++ rest) qbdf 2 hall hwf hno
    simp only [List.nil_append, List.length_nil, Nat.zero_add] at hs
    rw [← List.append_assoc] at hs
    have hb := loop_body_record r (table rs) rest qbdf 2 hr hk
    rw [if_pos hd, hall] at hb
    simp only [Bool.false_eq_true, if_false, if_pos hm] at hb
    have hge := r.encode_length_ge
    have hw : walk (table rs ++ r.encode ++ rest) (table rs ++ r.encode ++ rest).length qbdf 1
        (table rs).length 2 = some ⟨[.name r.slot_name], .returned 0⟩ := by
      have hlt : (table rs).length + 4 < (table rs ++ r.encode ++ rest).length := by
        simp only [List.length_append]; omega
      simp only [walk, if_pos hlt, hb]
    have ht := List.take_length (table rs ++ r.encode ++ rest)
    have := decode_dmi_of_reached (table rs ++ r.encode ++ rest)
      (table rs ++ r.encode ++ rest).length qbdf (Nat.le_refl _) (table rs).length 2 []
      (by rw [ht]; exact hs) 1 _ (by rw [ht]; exact hw)
    simpa [prepend] using this
  · intro rs hwf hno
    have hs := steps_table_exact rs [] [] qbdf 2 hall hwf hno
    simp only [List.nil_append, List.append_nil, List.length_nil, Nat.zero_add] at hs
    have ht := List.take_length (table rs)
    have hw := walk_at_end ((table rs).take (table rs).length) (table rs).length qbdf
      (table rs).length 2 (by omega)
    have := decode_dmi_of_reached (table rs) (table rs).length qbdf (Nat.le_refl _) _ _ _
      (by rw [ht]; exact hs) 1 _ hw
    simpa [prepend] using this

/-! ## Structural violations -/

theorem scan_strings_error (buf : List Byte) (pend k n p : Nat) (e : DecodeError)
    (h : scan_strings buf pend k n p = .error e) : e = .StringTableOverflow := by
  induction k generalizing n p with
  | zero => simp [scan_strings] at h
  | succ k ih =>
    simp only [scan_strings] at h
    split_ifs at h with h1 h2 h3
    · cases h; rfl
    · split at h
      · rename_i e2 he
        cases h
        exact ih _ _ he
      · cases h
    · split at h
      · rename_i e2 he
        cases h
        exact ih _ _ he
      · cases h

theorem slot_check_not_bad (buf : List Byte) (qbdf : pci_bdf) (start type len pcur ret : Nat)
    (strings : List (Option Nat)) (e : DecodeError) :
    slot_check buf qbdf start type len pcur strings ret ≠ .bad e := by
  unfold slot_check
  simp only
  split_ifs <;> simp

/-- The loop body on a record whose declared length is below 4. -/
theorem loop_body_short (buf : List Byte) (pend : Nat) (qbdf : pci_bdf) (s ret : Nat)
    (h : rd buf (s + 1) < 4) : loop_body buf pend qbdf s ret = .bad .MalformedRecord := by
  simp [loop_body, h]

/-- The loop body on a record of declared length at least 4: "entry overflow"
exactly when the end of the formatted area is at or behind the buffer end. -/
theorem loop_body_overflow_iff (buf : List Byte) (pend : Nat) (qbdf : pci_bdf) (s ret : Nat)
    (h : 4 ≤ rd buf (s + 1)) :
    loop_body buf pend qbdf s ret = .bad .RecordOverflow ↔ pend ≤ s + rd buf (s + 1) := by
  constructor
  · intro hb
    by_contra hlt
    cases e : scan_strings buf pend 255 0 (s + rd buf (s + 1)) with
    | error er =>
      have := scan_strings_error _ _ _ _ _ _ e
      subst this
      simp [loop_body, Nat.not_lt.2 h, hlt, e] at hb
    | ok v =>
      obtain ⟨q, strs⟩ := v
      rw [loop_body_ok buf pend qbdf s ret q strs h (by omega) e] at hb
      exact slot_check_not_bad _ _ _ _ _ _ _ _ _ hb
  · intro hge
    simp [loop_body, Nat.not_lt.2 h, hge]

/-- A pass that ends in `BAD_TABLE` ends the run: what was printed before it
stays printed, and the process exits with the failure. -/
theorem decode_dmi_bad_of_reached (file : List Byte) (len : Nat) (qbdf : pci_bdf)
    (hlen : len ≤ file.length) (s ret : Nat) (out : List Output)
    (hreach : Reached (file.take len) len qbdf s ret out) (h5 : s + 4 < len) (e : DecodeError)
    (hbad : loop_body (file.take len) len qbdf s ret = .bad e) :
    decode_dmi file len qbdf = some ⟨out, .bad_table e⟩ := by
  have hw : walk (file.take len) len qbdf 1 s ret = some ⟨[], .bad_table e⟩ := by
    simp only [walk, if_pos h5, hbad]
  have := decode_dmi_of_reached file len qbdf hlen s ret out hreach 1 _ hw
  simpa [prepend] using this

/-- C6 (as amended): at a loop head reached by the walk at which at least 5
bytes remain before the buffer end (the 4 header bytes and one more), a declared
length below 4 ends the scan with "entry too short" (MalformedRecord), whatever
the bytes behind the header are; what was printed before stays printed. -/
theorem malformed_record_fails (file : List Byte) (len : Nat) (qbdf : pci_bdf)
    (hlen : len ≤ file.length) (s ret : Nat) (out : List Output)
    (hreach : Reached (file.take len) len qbdf s ret out) (h5 : s + 4 < len)
    (hshort : rd file (s + 1) < 4) :
    decode_dmi file len qbdf = some ⟨out, .bad_table .MalformedRecord⟩ := by
  apply decode_dmi_bad_of_reached file len qbdf hlen s ret out hreach h5
  apply loop_body_short
  rw [rd_take _ _ _ (by omega)]
  exact hshort

/-- C7 (as amended): at a loop head reached by the walk at which at least 5
bytes remain and whose declared length is at least 4, the pass ends with
"entry overflow" (RecordOverflow) exactly when record start plus declared
length is at or behind the buffer end (equality included), and the scan then
fails with RecordOverflow; what was printed before stays printed. -/
theorem record_overflow_iff (file : List Byte) (len : Nat) (qbdf : pci_bdf)
    (hlen : len ≤ file.length) (s ret : Nat) (out : List Output)
    (hreach : Reached (file.take len) len qbdf s ret out) (h5 : s + 4 < len)
    (hfour : 4 ≤ rd file (s + 1)) :
    (loop_body (file.take len) len qbdf s ret = .bad .RecordOverflow
        ↔ len ≤ s + rd file (s + 1))
    ∧ (len ≤ s + rd file (s + 1) →
        decode_dmi file len qbdf = some ⟨out, .bad_table .RecordOverflow⟩) := by
  have e1 : rd (file.take len) (s + 1) = rd file (s + 1) := rd_take _ _ _ (by omega)
  have hiff := loop_body_overflow_iff (file.take len) len qbdf s ret (by rw [e1]; exact hfour)
  rw [e1] at hiff
  exact ⟨hiff, fun h => decode_dmi_bad_of_reached file len qbdf hlen s ret out hreach h5 _
    (hiff.2 h)⟩

/-- C10 (as amended): in `-a` mode, on a table that consists of well-formed
records (at most 254 strings each) followed by bytes on which the next pass of
the loop ends in a structural violation, the scan ends with that failure after
the lines of all records of interest before the violation have been printed, in
table order; they are not discarded. -/
theorem output_before_violation_kept (rs : List Rec) (tail : List Byte) (qbdf : pci_bdf)
    (e : DecodeError) (hall : qbdf.all = true)
    (hwf : ∀ r ∈ rs, r.WellFormed ∧ r.strings.length ≤ 254) (h5 : 4 < tail.length)
    (hbad : ∀ ret, loop_body (table rs ++ tail) (table rs ++ tail).length qbdf
      (table rs).length ret = .bad e) :
    decode_dmi (table rs ++ tail) (table rs ++ tail).length qbdf
      = some ⟨entries rs, .bad_table e⟩ := by
  have hs := steps_table_all rs [] tail qbdf 2 hall hwf
  simp only [List.nil_append, List.length_nil, Nat.zero_add] at hs
  have ht := List.take_length (table rs ++ tail)
  apply decode_dmi_bad_of_reached _ _ qbdf (Nat.le_refl _) (table rs).length
    (if entries rs = [] then 2 else 0) (entries rs)
  · rw [ht]; exact hs
  · simp only [List.length_append]; omega
  · rw [ht]; exact hbad _

/-! ## Concrete runs -/

/-- C3, an instance: the entry point `ep32` meets the conditions and is parsed
to version 2.8.0, table length 0x1234, table address 0x12345678; with the bytes
ff 80 in the place of the version it is parsed to version (-1, -128, 0). -/
theorem read_entrypoint_32bit_fields_witness :
    anchor32 <+: ep32 ∧ 0x1E ≤ rd ep32 5 ∧ rd ep32 5 ≤ 0x23 ∧ rd ep32 5 ≤ ep32.length
    ∧ read_entrypoint ep32 = .ok ⟨0, (2, 8, 0), 0x1234, 0x12345678⟩
    ∧ read_entrypoint ((ep32.set 6 0xFF).set 7 0x80)
        = .ok ⟨0, (-1, -128, 0), 0x1234, 0x12345678⟩ :=
  ⟨by decide, by decide, by decide, by decide,
    (read_entrypoint_32bit_fields ep32 (by decide) (by decide) (by decide) (by decide)).2.2.2
      2 8 0x1234 0x12345678 (by decide) (by decide) (by decide) (by decide) (by decide)
      (by decide) (by decide) (by decide),
    (read_entrypoint_32bit_fields ((ep32.set 6 0xFF).set 7 0x80) (by decide) (by decide)
      (by decide) (by decide)).2.2.2
      (-1) (-128) 0x1234 0x12345678 (by decide) (by decide) (by decide) (by decide) (by decide)
      (by decide) (by decide) (by decide)⟩

/-- C4, an instance: the entry point `ep64` meets the conditions and is parsed
to version 3.2.1, table length 0x12345, table address 0x123456789; with the
bytes ff 80 7f in the place of the version it is parsed to version
(-1, -128, 127). -/
theorem read_entrypoint_64bit_fields_witness :
    anchor64 <+: ep64 ∧ 0x18 ≤ rd ep64 6 ∧ rd ep64 6 ≤ 0x23 ∧ rd ep64 6 ≤ ep64.length
    ∧ read_entrypoint ep64 = .ok ⟨0, (3, 2, 1), 0x12345, 0x123456789⟩
    ∧ read_entrypoint (((ep64.set 7 0xFF).set 8 0x80).set 9 0x7F)
        = .ok ⟨0, (-1, -128, 127), 0x12345, 0x123456789⟩ :=
  ⟨by decide, by decide, by decide, by decide,
    (read_entrypoint_64bit_fields ep64 (by decide) (by decide) (by decide) (by decide)).2.2.2
      3 2 1 0x12345 0x123456789 (by decide) (by decide) (by decide) (by decide) (by decide)
      (by decide) (by decide) (by decide) (by decide) (by decide),
    (read_entrypoint_64bit_fields (((ep64.set 7 0xFF).set 8 0x80).set 9 0x7F) (by decide)
      (by decide) (by decide) (by decide)).2.2.2
      (-1) (-128) 127 0x12345 0x123456789 (by decide) (by decide) (by decide) (by decide)
      (by decide) (by decide) (by decide) (by decide) (by decide) (by decide)⟩

/-- C5, instances of the four failures and of success. -/
theorem read_entrypoint_ok_iff_witness :
    read_entrypoint [0x5F, 0x53, 0x4D, 0x5F, 0, 0x1F, 2] = .error .TooShort
    ∧ read_entrypoint [0x5F, 0x53, 0x4D, 0x33, 0x33, 0, 0x18, 3] = .error .BadSignature
    ∧ read_entrypoint [0x5F, 0x53, 0x4D, 0x5F, 0, 0x1D, 2, 8] = .error .BadLength
    ∧ read_entrypoint [0x5F, 0x53, 0x4D, 0x33, 0x5F, 0, 0x24, 3] = .error .BadLength
    ∧ read_entrypoint (ep32.take 0x1E) = .error .Truncated
    ∧ ∃ h, read_entrypoint ep32 = .ok h :=
  ⟨(read_entrypoint_ok_iff _).2.1 (by decide),
   (read_entrypoint_ok_iff _).2.2.1 (by decide) (by decide) (by decide),
   (read_entrypoint_ok_iff _).2.2.2.1 (by decide) (by decide) (by decide),
   (read_entrypoint_ok_iff _).2.2.2.2.1 (by decide) (by decide) (by decide),
   (read_entrypoint_ok_iff _).2.2.2.2.2.1 (by decide) (by decide) (by decide) (by decide)
     (by decide),
   (read_entrypoint_ok_iff ep32).1.2 ⟨by decide, Or.inl ⟨by decide, by decide, by decide,
     by decide⟩⟩⟩

/-- C6, the claim fails: a header with declared length 3 that ends exactly at
the buffer end is at a loop head the walk reaches, yet the loop is not entered
and the scan ends with `return 2`, not with MalformedRecord. -/
theorem malformed_header_at_end_ignored :
    Reached ([1, 3, 0, 0].take 4) 4 ⟨true, 0, 0, 0, 0⟩ 0 2 []
    ∧ rd [1, 3, 0, 0] 1 < 4
    ∧ decode_dmi [1, 3, 0, 0] 4 ⟨true, 0, 0, 0, 0⟩ = some ⟨[], .returned 2⟩ :=
  ⟨Steps.refl 0 2, by decide, by decide⟩

/-- C6 (as amended), an instance: behind the record `slot1_rec`, a header with
declared length 3 and one more byte. -/
theorem malformed_record_fails_witness :
    29 ≤ (slot1_rec.encode ++ [1, 3, 0, 0, 0x7F]).length
    ∧ Reached ((slot1_rec.encode ++ [1, 3, 0, 0, 0x7F]).take 29) 29 ⟨true, 0, 0, 0, 0⟩ 24 0
        [.line 0 2 3 1 (some [0x53, 0x6c, 0x6f, 0x74, 0x31])]
    ∧ 24 + 4 < 29 ∧ rd (slot1_rec.encode ++ [1, 3, 0, 0, 0x7F]) (24 + 1) < 4
    ∧ decode_dmi (slot1_rec.encode ++ [1, 3, 0, 0, 0x7F]) 29 ⟨true, 0, 0, 0, 0⟩
        = some ⟨[.line 0 2 3 1 (some [0x53, 0x6c, 0x6f, 0x74, 0x31])],
            .bad_table .MalformedRecord⟩ :=
  have hreach : Reached ((slot1_rec.encode ++ [1, 3, 0, 0, 0x7F]).take 29) 29
      ⟨true, 0, 0, 0, 0⟩ 24 0 [.line 0 2 3 1 (some [0x53, 0x6c, 0x6f, 0x74, 0x31])] :=
    @Steps.head _ _ _ 0 2 24 0 24 0 [.line 0 2 3 1 (some [0x53, 0x6c, 0x6f, 0x74, 0x31])] []
      (by decide) (by decide) (Steps.refl 24 0)
  ⟨by decide, hreach, by decide, by decide,
    malformed_record_fails _ 29 _ (by decide) 24 0 _ hreach (by decide) (by decide)⟩

/-- C7, the claim fails: a record of declared length 5 in a buffer of 5 bytes
ends at the buffer end, not behind it, yet the scan fails with RecordOverflow. -/
theorem record_ending_at_buffer_end_overflows :
    Reached ([1, 5, 0, 0, 0].take 5) 5 ⟨true, 0, 0, 0, 0⟩ 0 2 []
    ∧ 4 ≤ rd [1, 5, 0, 0, 0] 1 ∧ ¬ (5 < 0 + rd [1, 5, 0, 0, 0] 1)
    ∧ decode_dmi [1, 5, 0, 0, 0] 5 ⟨true, 0, 0, 0, 0⟩
        = some ⟨[], .bad_table .RecordOverflow⟩ :=
  ⟨Steps.refl 0 2, by decide, by decide, by decide⟩

/-- C7 (as amended), an instance: behind the record `slot1_rec`, a record of
declared length 6 whose formatted area ends exactly at the buffer end. -/
theorem record_overflow_iff_witness :
    30 ≤ (slot1_rec.encode ++ [1, 6, 0, 0, 0, 0]).length
    ∧ Reached ((slot1_rec.encode ++ [1, 6, 0, 0, 0, 0]).take 30) 30 ⟨true, 0, 0, 0, 0⟩ 24 0
        [.line 0 2 3 1 (some [0x53, 0x6c, 0x6f, 0x74, 0x31])]
    ∧ 24 + 4 < 30 ∧ 4 ≤ rd (slot1_rec.encode ++ [1, 6, 0, 0, 0, 0]) (24 + 1)
    ∧ decode_dmi (slot1_rec.encode ++ [1, 6, 0, 0, 0, 0]) 30 ⟨true, 0, 0, 0, 0⟩
        = some ⟨[.line 0 2 3 1 (some [0x53, 0x6c, 0x6f, 0x74, 0x31])],
            .bad_table .RecordOverflow⟩ :=
  have hreach : Reached ((slot1_rec.encode ++ [1, 6, 0, 0, 0, 0]).take 30) 30
      ⟨true, 0, 0, 0, 0⟩ 24 0 [.line 0 2 3 1 (some [0x53, 0x6c, 0x6f, 0x74, 0x31])] :=
    @Steps.head _ _ _ 0 2 24 0 24 0 [.line 0 2 3 1 (some [0x53, 0x6c, 0x6f, 0x74, 0x31])] []
      (by decide) (by decide) (Steps.refl 24 0)
  ⟨by decide, hreach, by decide, by decide,
    (record_overflow_iff _ 30 _ (by decide) 24 0 _ hreach (by decide) (by decide)).2
      (by decide)⟩

/-- C10, the claim fails: in `-a` mode the line of `slot1_rec` is printed
before the malformed record behind it ends the scan. -/
theorem lines_printed_before_failure :
    decode_dmi (table [slot1_rec] ++ [2, 3, 0, 0, 0]) 29 ⟨true, 0, 0, 0, 0⟩
      = some ⟨[.line 0 2 3 1 (some [0x53, 0x6c, 0x6f, 0x74, 0x31])],
          .bad_table .MalformedRecord⟩ := by
  decide

set_option maxRecDepth 8000 in
/-- C10 (as amended), an instance: two records, the second of interest,
followed by a record that overflows the buffer. -/
theorem output_before_violation_kept_witness :
    (⟨true, 0, 0, 0, 0⟩ : pci_bdf).all = true
    ∧ (∀ r ∈ [many_strings 2, slot1_rec], r.WellFormed ∧ r.strings.length ≤ 254)
    ∧ 4 < [1, 200, 0, 0, 0, 0].length
    ∧ decode_dmi (table [many_strings 2, slot1_rec] ++ [1, 200, 0, 0, 0, 0])
        (table [many_strings 2, slot1_rec] ++ [1, 200, 0, 0, 0, 0]).length ⟨true, 0, 0, 0, 0⟩
        = some ⟨[.line 0 2 3 1 (some [0x53, 0x6c, 0x6f, 0x74, 0x31])],
            .bad_table .RecordOverflow⟩ :=
  ⟨rfl, by decide, by decide,
    output_before_violation_kept [many_strings 2, slot1_rec] [1, 200, 0, 0, 0, 0] ⟨true, 0, 0, 0, 0⟩
      .RecordOverflow rfl (by decide) (by decide) (fun _ => rfl)⟩

/-! ## The 255 passes of the string loop -/

theorem str_bytes_append (ss ts : List (List Byte)) :
    str_bytes (ss ++ ts) = str_bytes ss ++ str_bytes ts := by
  induction ss with
  | nil => rfl
  | cons s ss ih => simp [str_bytes, ih]

/-- The string loop over exactly as many terminated strings as it has passes
left: it ends behind the last of them, whatever follows. -/
theorem scan_strings_exhaust (ss : List (List Byte)) (a rest : List Byte) (k n pend : Nat)
    (hwf : ∀ s ∈ ss, s ≠ [] ∧ ∀ c ∈ s, c ≠ 0) (hk : ss.length = k)
    (hp : a.length + (str_bytes ss).length ≤ pend) :
    scan_strings (a ++ str_bytes ss ++ rest) pend k n a.length
      = .ok (a.length + (str_bytes ss).length, str_ptrs a.length ss) := by
  induction ss generalizing a k n with
  | nil =>
    subst hk
    simp [scan_strings, str_bytes, str_ptrs]
  | cons s ss ih =>
    obtain ⟨j, rfl⟩ : ∃ j, k = j + 1 := ⟨k - 1, by simp at hk; omega⟩
    obtain ⟨hs, hnz⟩ := hwf s (List.mem_cons_self _ _)
    obtain ⟨c, cs, rfl⟩ := List.exists_cons_of_ne_nil hs
    have hc : c.val ≠ 0 := fun h => hnz c (List.mem_cons_self _ _) (Fin.ext h)
    have hlen : (str_bytes ((c :: cs) :: ss)).length = cs.length + 2 + (str_bytes ss).length := by
      simp [str_bytes]; omega
    rw [hlen] at hp
    have e1 : a ++ str_bytes ((c :: cs) :: ss) ++ rest
        = a ++ c :: (cs ++ 0 :: (str_bytes ss ++ rest)) := by simp [str_bytes]
    have e2 : a ++ str_bytes ((c :: cs) :: ss) ++ rest
        = (a ++ [c]) ++ cs ++ 0 :: (str_bytes ss ++ rest) := by simp [str_bytes]
    have e3 : a ++ str_bytes ((c :: cs) :: ss) ++ rest
        = (a ++ c :: cs ++ [0]) ++ str_bytes ss ++ rest := by simp [str_bytes]
    have hskip : skip_string (a ++ str_bytes ((c :: cs) :: ss) ++ rest) pend
        (pend - (a.length + 1)) (a.length + 1) = a.length + cs.length + 2 := by
      have := skip_string_str cs (a ++ [c]) (str_bytes ss ++ rest) (pend - (a.length + 1)) pend
        (fun x hx => hnz x (List.mem_cons_of_mem _ hx)) (by omega) (by simp; omega)
      rw [e2, List.length_append, List.length_singleton] at *
      rw [this]
      omega
    have hrec := ih (a ++ c :: cs ++ [0]) j (n + 1)
      (fun x hx => hwf x (List.mem_cons_of_mem _ hx)) (by simp at hk; omega) (by simp; omega)
    have hl : (a ++ c :: cs ++ [0]).length = a.length + cs.length + 2 := by simp; omega
    rw [hl, ← e3] at hrec
    rw [scan_strings, if_neg (by omega)]
    rw [show rd (a ++ str_bytes ((c :: cs) :: ss) ++ rest) a.length = c.val from by
      rw [e1, rd_at_length]]
    rw [if_pos hc, hskip, hrec, hlen]
    simp only [str_ptrs, List.length_cons]
    congr 2
    omega

theorem slot_check_other (buf : List Byte) (qbdf : pci_bdf) (start type len pcur ret : Nat)
    (strings : List (Option Nat)) (h : type ≠ 9) :
    slot_check buf qbdf start type len pcur strings ret = .next pcur ret [] := by
  simp [slot_check, h]

/-- One pass of the loop body over a header, a formatted area and 255 terminated
strings: the string loop uses up its 255 passes on the strings, so the cursor is
left behind the 255th string, on whatever byte follows it. -/
theorem loop_body_255_strings (a body rest : List Byte) (t dl h0 h1 : Byte)
    (ss : List (List Byte)) (qbdf : pci_bdf) (ret : Nat) (h4 : 4 ≤ dl.val)
    (hb : body.length + 4 = dl.val) (hwf : ∀ s ∈ ss, s ≠ [] ∧ ∀ c ∈ s, c ≠ 0)
    (hk : ss.length = 255) :
    loop_body (a ++ t :: dl :: h0 :: h1 :: body ++ str_bytes ss ++ rest)
        (a ++ t :: dl :: h0 :: h1 :: body ++ str_bytes ss ++ rest).length qbdf a.length ret
      = slot_check (a ++ t :: dl :: h0 :: h1 :: body ++ str_bytes ss ++ rest) qbdf a.length
          t.val dl.val (a.length + dl.val + (str_bytes ss).length)
          (str_ptrs (a.length + dl.val) ss) ret := by
  have r0 : rd (a ++ t :: dl :: h0 :: h1 :: body ++ str_bytes ss ++ rest) a.length = t.val := by
    rw [List.append_assoc, List.append_assoc, List.cons_append, rd_at_length]
  have r1 : rd (a ++ t :: dl :: h0 :: h1 :: body ++ str_bytes ss ++ rest) (a.length + 1)
      = dl.val := by
    have := rd_at_length (a ++ [t]) (h0 :: h1 :: body ++ str_bytes ss ++ rest) dl
    simpa using this
  have hF : (a ++ t :: dl :: h0 :: h1 :: body).length = a.length + dl.val := by
    simp only [List.length_append, List.length_cons]
    omega
  obtain ⟨s, ss2, rfl⟩ : ∃ s ss2, ss = s :: ss2 :=
    List.exists_cons_of_ne_nil (fun h => by rw [h] at hk; simp at hk)
  have hpos := str_bytes_length_pos s ss2
  have hscan := scan_strings_exhaust (s :: ss2) (a ++ t :: dl :: h0 :: h1 :: body) rest 255 0
    (a ++ t :: dl :: h0 :: h1 :: body ++ str_bytes (s :: ss2) ++ rest).length hwf hk
    (by simp only [List.length_append]; omega)
  rw [hF] at hscan
  have hlt : a.length + rd (a ++ t :: dl :: h0 :: h1 :: body ++ str_bytes (s :: ss2) ++ rest)
      (a.length + 1) < (a ++ t :: dl :: h0 :: h1 :: body ++ str_bytes (s :: ss2) ++ rest).length := by
    rw [r1, ← hF]
    simp only [List.length_append]
    omega
  rw [loop_body_ok _ _ qbdf a.length ret _ _ (by rw [r1]; exact h4) hlt (by rw [r1]; exact hscan)]
  rw [r0, r1]

theorem str_bytes_replicate_length (k : Nat) (c : Byte) :
    (str_bytes (List.replicate k [c])).length = 2 * k := by
  induction k with
  | zero => rfl
  | succ k ih => simp [List.replicate_succ, str_bytes, ih]; omega

theorem replicate_strings_ok (k : Nat) :
    ∀ s ∈ List.replicate k [(0x61 : Byte)], s ≠ [] ∧ ∀ c ∈ s, c ≠ 0 := by
  intro s hs
  rw [List.eq_of_mem_replicate hs]
  refine ⟨List.cons_ne_nil _ _, fun c hc => ?_⟩
  rw [List.mem_singleton] at hc
  rw [hc]
  exact Fin.ne_of_val_ne (by decide)

theorem many_strings_wf (k : Nat) (hk : k ≤ 255) : (many_strings k).WellFormed :=
  ⟨Nat.le_refl 4, rfl, by rw [many_strings, List.length_replicate]; exact hk,
    replicate_strings_ok k⟩

/-- The first pass over a buffer that starts with the header `01 04 00 00` and
255 strings `a`: the cursor is left at offset 514, behind the 255th string. -/
theorem first_pass_255 (rest : List Byte) (qbdf : pci_bdf) :
    loop_body ([1, 4, 0, 0] ++ str_bytes (List.replicate 255 [0x61]) ++ rest)
        ([1, 4, 0, 0] ++ str_bytes (List.replicate 255 [0x61]) ++ rest).length qbdf 0 2
      = .next 514 2 [] := by
  have h := loop_body_255_strings [] [] rest 1 4 0 0 (List.replicate 255 [0x61]) qbdf 2
    (by decide) (by decide) (replicate_strings_ok 255) (List.length_replicate _ _)
  rw [slot_check_other _ _ _ _ _ _ _ _ (by decide), str_bytes_replicate_length] at h
  exact h

set_option maxRecDepth 20000 in
theorem table_255_shape :
    table [many_strings 255, slot1_rec]
      = [1, 4, 0, 0] ++ str_bytes (List.replicate 255 [0x61]) ++ 0 :: slot1_rec.encode := by
  rfl

theorem table_255_length : (table [many_strings 255, slot1_rec]).length = 539 := by
  rw [table_255_shape]
  simp only [List.length_append, List.length_cons, str_bytes_replicate_length]
  rfl

theorem table_255_take : (table [many_strings 255, slot1_rec]).take 539
    = table [many_strings 255, slot1_rec] := by
  have := List.take_length (table [many_strings 255, slot1_rec])
  rwa [table_255_length] at this

set_option maxRecDepth 100000 in
/-- The walk over the table of a 255-string record followed by `slot1_rec`
(539 bytes): the first pass leaves the cursor at offset 514, on the closing zero
of the first record; the second reads a record of type 0 and length 9 there and
leaves the cursor at 525; there the declared length is 0. -/
theorem table_255_walk (qbdf : pci_bdf) :
    Reached (table [many_strings 255, slot1_rec]) 539 qbdf 525 2 []
    ∧ loop_body (table [many_strings 255, slot1_rec]) 539 qbdf 525 2
        = .bad .MalformedRecord := by
  have h0 := first_pass_255 (0 :: slot1_rec.encode) qbdf
  rw [← table_255_shape, table_255_length] at h0
  have h1 : loop_body (table [many_strings 255, slot1_rec]) 539 qbdf 514 2
      = .next 525 2 [] := by
    rw [loop_body_ok _ 539 qbdf 514 2 525 [none] (by decide) (by decide) (by rfl)]
    exact slot_check_other _ _ _ _ _ _ _ _ (by decide)
  exact ⟨Steps.head (by decide) h0 (Steps.one (by decide) h1),
    loop_body_short _ _ _ _ _ (by decide)⟩

/-- The run of `decode_dmi` on that table, for any query. -/
theorem decode_dmi_table_255 (qbdf : pci_bdf) :
    decode_dmi (table [many_strings 255, slot1_rec]) 539 qbdf
      = some ⟨[], .bad_table .MalformedRecord⟩ := by
  obtain ⟨hr, hb⟩ := table_255_walk qbdf
  apply decode_dmi_bad_of_reached _ 539 qbdf (by rw [table_255_length]) 525 2 []
  · rw [table_255_take]; exact hr
  · decide
  · rw [table_255_take]; exact hb

set_option maxRecDepth 100000 in
/-- C1, the failing run: a table of two well-formed records, the first with
255 strings, the second the record of interest `slot1_rec`.  The string loop
stops after 255 passes in front of the closing zero of the first record, the
walk goes on from there, and the scan ends with MalformedRecord and no line,
where the line of `slot1_rec` is due. -/
theorem table_with_255_strings_all :
    (many_strings 255).WellFormed ∧ slot1_rec.WellFormed
    ∧ (table [many_strings 255, slot1_rec]).length = 539
    ∧ entries [many_strings 255, slot1_rec]
        = [.line 0 2 3 1 (some [0x53, 0x6c, 0x6f, 0x74, 0x31])]
    ∧ decode_dmi (table [many_strings 255, slot1_rec]) 539 ⟨true, 0, 0, 0, 0⟩
        = some ⟨[], .bad_table .MalformedRecord⟩ :=
  ⟨many_strings_wf 255 (Nat.le_refl _), by decide, table_255_length, by decide,
    decode_dmi_table_255 _⟩

set_option maxRecDepth 100000 in
/-- C2, the failing run: the same table queried for 0000:02:03.1, the address
of its second record, whose slot name is `Slot1`.  The scan ends with
MalformedRecord; no name is printed. -/
theorem table_with_255_strings_exact :
    (many_strings 255).WellFormed ∧ ¬ (many_strings 255).decodable
    ∧ slot1_rec.WellFormed ∧ slot1_rec.decodable ∧ slot1_rec.matches ⟨false, 0, 2, 3, 1⟩
    ∧ slot1_rec.slot_name = some [0x53, 0x6c, 0x6f, 0x74, 0x31]
    ∧ decode_dmi (table [many_strings 255, slot1_rec]) 539 ⟨false, 0, 2, 3, 1⟩
        = some ⟨[], .bad_table .MalformedRecord⟩ :=
  ⟨many_strings_wf 255 (Nat.le_refl _), by decide, by decide, by decide, by decide, by decide,
    decode_dmi_table_255 _⟩

/-- C2, the table of the claim's last sentence: the one record `slot1_rec`. -/
theorem slot1_table_runs :
    decode_dmi (table [slot1_rec]) 24 ⟨false, 0, 2, 3, 1⟩
      = some ⟨[.name (some [0x53, 0x6c, 0x6f, 0x74, 0x31])], .returned 0⟩
    ∧ decode_dmi (table [slot1_rec]) 24 ⟨false, 0, 2, 3, 2⟩ = some ⟨[], .returned 2⟩
    ∧ decode_dmi (table [slot1_rec]) 24 ⟨true, 0, 0, 0, 0⟩
      = some ⟨[.line 0 2 3 1 (some [0x53, 0x6c, 0x6f, 0x74, 0x31])], .returned 0⟩ := by
  refine ⟨by decide, by decide, by decide⟩

set_option maxRecDepth 100000 in
theorem many_strings_256_shape :
    (many_strings 256).encode
      = [1, 4, 0, 0] ++ str_bytes (List.replicate 255 [0x61]) ++ [0x61, 0, 0] := by
  rfl

set_option maxRecDepth 100000 in
theorem many_strings_255_shape :
    (many_strings 255).encode = [1, 4, 0, 0] ++ str_bytes (List.replicate 255 [0x61]) ++ [0] := by
  rfl

/-- C9, the failing runs: on a record with 256 strings (517 bytes) the scan
ends with `return 2` and not with StringTableOverflow; on a record with 255
strings (515 bytes) that is followed by another record, the pass leaves the
cursor at offset 514, on the closing zero, not behind it at 515. -/
theorem string_limit_runs (qbdf : pci_bdf) :
    (many_strings 256).encode.length = 517
    ∧ decode_dmi (many_strings 256).encode 517 qbdf = some ⟨[], .returned 2⟩
    ∧ (many_strings 255).WellFormed ∧ (many_strings 255).encode.length = 515
    ∧ loop_body (table [many_strings 255, slot1_rec]) 539 qbdf 0 2 = .next 514 2 []
    ∧ rd (table [many_strings 255, slot1_rec]) 514 = 0 := by
  have hl : (many_strings 256).encode.length = 517 := by
    rw [many_strings_256_shape]
    simp only [List.length_append, List.length_cons, str_bytes_replicate_length]
    rfl
  have ht := List.take_length (many_strings 256).encode
  rw [hl] at ht
  have h0 := first_pass_255 [0x61, 0, 0] qbdf
  rw [← many_strings_256_shape, hl] at h0
  have h1 := first_pass_255 (0 :: slot1_rec.encode) qbdf
  rw [← table_255_shape, table_255_length] at h1
  have hd := decode_dmi_of_reached (many_strings 256).encode 517 qbdf
    (by rw [hl]) 514 2 [] (by rw [ht]; exact Steps.one (by decide) h0) 1 _
    (walk_at_end _ 517 qbdf 514 2 (by decide))
  have hl5 : (many_strings 255).encode.length = 515 := by
    rw [many_strings_255_shape]
    simp only [List.length_append, List.length_cons, str_bytes_replicate_length]
    rfl
  have e0 : rd (table [many_strings 255, slot1_rec]) 514 = 0 := by
    rw [table_255_shape]
    have := rd_append_right ([1, 4, 0, 0] ++ str_bytes (List.replicate 255 [0x61]))
      (0 :: slot1_rec.encode) 0
    rw [List.length_append, str_bytes_replicate_length] at this
    exact this
  exact ⟨hl, hd, many_strings_wf 255 (Nat.le_refl _), hl5, h1, e0⟩

/-! ## String areas that are not closed -/

/-- The part of `slot_check` behind the three tests of lines 213, 221 and 225,
for a type-9 record of length at least 0x10 with a PCI-bearing slot type. -/
theorem slot_check_decoded (buf : List Byte) (qbdf : pci_bdf) (start len pcur ret : Nat)
    (strings : List (Option Nat)) (hlen : 0x10 ≤ len)
    (hpci : pci_slot_type (rd buf (start + 0x05)) = true) :
    slot_check buf qbdf start 9 len pcur strings ret
      = if qbdf.all then
          .next pcur 0 [.line (rd buf (start + 0x0d) + 256 * rd buf (start + 0x0e))
            (rd buf (start + 0x0f)) (rd buf (start + 0x10) / 8) (rd buf (start + 0x10) % 8)
            ((slot_name_of strings (rd buf (start + 0x04))).map (cstr buf))]
        else if rd buf (start + 0x0d) + 256 * rd buf (start + 0x0e) = qbdf.segment
            ∧ rd buf (start + 0x0f) = qbdf.bus ∧ rd buf (start + 0x10) / 8 = qbdf.dev
            ∧ rd buf (start + 0x10) % 8 = qbdf.fn then
          .brk [.name ((slot_name_of strings (rd buf (start + 0x04))).map (cstr buf))] 0
        else .next pcur ret [] := by
  unfold slot_check
  simp only [if_true, if_neg (Nat.not_lt.2 hlen), hpci, rd16, shr3_eq_div, and7_eq_mod,
    Nat.add_assoc, Nat.reduceAdd]
  by_cases hall : qbdf.all = true
  · simp [hall]
  · simp only [hall, Bool.false_eq_true, if_false]
    by_cases hm : rd buf (start + 13) + 256 * rd buf (start + 14) = qbdf.segment
        ∧ rd buf (start + 15) = qbdf.bus ∧ rd buf (start + 16) / 8 = qbdf.dev
        ∧ rd buf (start + 16) % 8 = qbdf.fn
    · rw [if_pos hm, if_pos ⟨hm.2.1, hm.1, hm.2.2⟩]
    · rw [if_neg hm, if_neg (fun h => hm ⟨h.2.1, h.1, h.2.2⟩)]

/-- C13: for a type-9 record of length at least 0x10 with a PCI-bearing slot
type, the printed (and compared) address is: segment, the little-endian 16-bit
value at record offset 0x0D; bus, the byte at 0x0F; device, the packed byte
(offset 0x10) divided by 8, its high 5 bits; function, the packed byte modulo 8,
its low 3 bits.  So device is at most 31, function at most 7, and
device * 8 + function is the packed byte; the byte 0x19 gives device 3,
function 1. -/
theorem pci_address_decoding (buf : List Byte) (qbdf : pci_bdf) (start len pcur ret : Nat)
    (strings : List (Option Nat)) (hall : qbdf.all = true) (hlen : 0x10 ≤ len)
    (hpci : pci_slot_type (rd buf (start + 0x05)) = true) :
    slot_check buf qbdf start 9 len pcur strings ret
      = .next pcur 0 [.line (rd buf (start + 0x0d) + 256 * rd buf (start + 0x0e))
          (rd buf (start + 0x0f)) (rd buf (start + 0x10) / 8) (rd buf (start + 0x10) % 8)
          ((slot_name_of strings (rd buf (start + 0x04))).map (cstr buf))]
    ∧ rd buf (start + 0x10) / 8 ≤ 31 ∧ rd buf (start + 0x10) % 8 ≤ 7
    ∧ rd buf (start + 0x10) / 8 * 8 + rd buf (start + 0x10) % 8 = rd buf (start + 0x10)
    ∧ (rd buf (start + 0x10) = 0x19 →
        rd buf (start + 0x10) / 8 = 3 ∧ rd buf (start + 0x10) % 8 = 1)
    ∧ ∀ b : Nat, b < 256 → b >>> 3 = b / 8 ∧ b &&& 0x7 = b % 8 := by
  have hb := rd_lt buf (start + 0x10)
  refine ⟨?_, by omega, by omega, by omega, fun h => by omega,
    fun b _ => ⟨shr3_eq_div b, and7_eq_mod b⟩⟩
  rw [slot_check_decoded buf qbdf start len pcur ret strings hlen hpci, if_pos hall]

/-- C13, an instance: the record `slot1_rec`, whose packed byte is 0x19. -/
theorem pci_address_decoding_witness :
    (⟨true, 0, 0, 0, 0⟩ : pci_bdf).all = true ∧ 0x10 ≤ 0x11
    ∧ pci_slot_type (rd slot1_rec.encode (0 + 0x05)) = true
    ∧ rd slot1_rec.encode (0 + 0x10) = 0x19
    ∧ rd slot1_rec.encode (0 + 0x10) / 8 = 3 ∧ rd slot1_rec.encode (0 + 0x10) % 8 = 1 :=
  ⟨rfl, by decide, by decide, by decide,
    (pci_address_decoding slot1_rec.encode ⟨true, 0, 0, 0, 0⟩ 0 0x11 24 2 [some 17] rfl
      (by decide) (by decide)).2.2.2.2.1 (by decide)⟩

/-! ## Progress of the cursor -/

theorem skip_string_gt (buf : List Byte) (pend fuel p : Nat) (h : p < pend) :
    p + 1 ≤ skip_string buf pend (fuel + 1) p := by
  simp only [skip_string, if_pos h]
  split_ifs
  · exact skip_string_ge buf pend fuel (p + 1)
  · exact Nat.le_refl _

/-- A string loop that makes at least one pass and ends without error started
inside the buffer and has moved the cursor. -/
theorem scan_strings_pos (buf : List Byte) (pend k n p p2 : Nat) (ss : List (Option Nat))
    (h : scan_strings buf pend (k + 1) n p = .ok (p2, ss)) : p < pend ∧ p + 1 ≤ p2 := by
  simp only [scan_strings] at h
  split_ifs at h with h1 h2 h3
  · split at h
    · cases h
    · rename_i q strs e
      simp only [Except.ok.injEq, Prod.mk.injEq] at h
      obtain ⟨rfl, -⟩ := h
      have b := scan_strings_bounds _ _ _ _ _ _ _ e
      have g := skip_string_ge buf pend (pend - (p + 1)) (p + 1)
      exact ⟨by omega, by omega⟩
  · simp only [Except.ok.injEq, Prod.mk.injEq] at h
    exact ⟨by omega, by omega⟩
  · split at h
    · cases h
    · rename_i q strs e
      simp only [Except.ok.injEq, Prod.mk.injEq] at h
      obtain ⟨rfl, -⟩ := h
      have b := scan_strings_bounds _ _ _ _ _ _ _ e
      exact ⟨by omega, by omega⟩

/-- The string loop of a record, when it ends without error, has moved the
cursor by at least 2 bytes and the byte behind the formatted area is in the
buffer. -/
theorem scan_strings_two (buf : List Byte) (pend k p p2 : Nat) (ss : List (Option Nat))
    (h : scan_strings buf pend (k + 2) 0 p = .ok (p2, ss)) : p + 2 ≤ p2 ∧ p2 ≤ pend := by
  have hb := scan_strings_bounds _ _ _ _ _ _ _ h
  have hp := scan_strings_pos _ _ _ _ _ _ _ h
  refine ⟨?_, hb.2 (by omega)⟩
  rw [scan_strings] at h
  split_ifs at h with h1 h2 h3
  · split at h
    · cases h
    · rename_i q strs e
      simp only [Except.ok.injEq, Prod.mk.injEq] at h
      obtain ⟨rfl, -⟩ := h
      have b := scan_strings_pos _ _ _ _ _ _ _ e
      have g := skip_string_ge buf pend (pend - (p + 1)) (p + 1)
      omega
  · exact absurd rfl h3
  · split at h
    · cases h
    · rename_i q strs e
      simp only [Except.ok.injEq, Prod.mk.injEq] at h
      obtain ⟨rfl, -⟩ := h
      have b := scan_strings_pos _ _ _ _ _ _ _ e
      omega

/-- A pass that goes on to the next loop head has moved the cursor behind the
formatted area and at least 2 bytes of string area, and not behind the buffer
end. -/
theorem loop_body_progress (buf : List Byte) (pend : Nat) (qbdf : pci_bdf) (s ret p r : Nat)
    (o : List Output) (h : loop_body buf pend qbdf s ret = .next p r o) :
    4 ≤ rd buf (s + 1) ∧ s + rd buf (s + 1) + 2 ≤ p ∧ p ≤ pend := by
  by_cases h1 : rd buf (s + 1) < 4
  · simp [loop_body, h1] at h
  by_cases h2 : s + rd buf (s + 1) ≥ pend
  · simp [loop_body, h1, h2] at h
  cases e : scan_strings buf pend 255 0 (s + rd buf (s + 1)) with
  | error er => simp [loop_body, h1, h2, e] at h
  | ok v =>
    obtain ⟨q, strs⟩ := v
    rw [loop_body_ok buf pend qbdf s ret q strs (by omega) (by omega) e] at h
    have hp := slot_check_next _ _ _ _ _ _ _ _ _ _ _ h
    have b := scan_strings_two buf pend 253 _ _ _ e
    subst hp
    exact ⟨by omega, b.1, b.2⟩

theorem steps_le (buf : List Byte) (pend : Nat) (qbdf : pci_bdf) (a ra b rb : Nat)
    (out : List Output) (h : Steps buf pend qbdf a ra out b rb) : a ≤ b ∧ (a ≤ pend → b ≤ pend) := by
  induction h with
  | refl => exact ⟨Nat.le_refl _, id⟩
  | head hlt hb _ ih =>
    have := loop_body_progress _ _ _ _ _ _ _ _ hb
    exact ⟨by omega, fun _ => ih.2 this.2.2⟩

/-- C20: the run of `decode_dmi` always ends with a result; a pass of the loop
that does not end the scan moves the cursor forward by at least the declared
length plus 2, which is at least 6 bytes, and not behind the buffer end; and no
loop head the walk reaches lies behind the buffer end. -/
theorem walk_terminates_with_progress (file : List Byte) (len : Nat) (qbdf : pci_bdf) :
    (∃ r, decode_dmi file len qbdf = some r)
    ∧ (∀ s ret p r o, loop_body (file.take len) len qbdf s ret = .next p r o →
        s + rd (file.take len) (s + 1) + 2 ≤ p ∧ s + 6 ≤ p ∧ p ≤ len)
    ∧ ∀ s ret out, Reached (file.take len) len qbdf s ret out → s ≤ len := by
  refine ⟨decode_dmi_total file len qbdf, ?_, ?_⟩
  · intro s ret p r o h
    have := loop_body_progress _ _ _ _ _ _ _ _ h
    exact ⟨this.2.1, by omega, this.2.2⟩
  · intro s ret out h
    exact (steps_le _ _ _ _ _ _ _ _ h).2 (Nat.zero_le _)

/-- C20, an instance: the table of `slot1_rec` and a type-1 record; the first
pass moves the cursor from 0 to 24, by the declared length 0x11 and the 7 bytes
of the string area. -/
theorem walk_terminates_with_progress_witness :
    loop_body ((table [slot1_rec, many_strings 1]).take 31) 31 ⟨true, 0, 0, 0, 0⟩ 0 2
      = .next 24 0 [.line 0 2 3 1 (some [0x53, 0x6c, 0x6f, 0x74, 0x31])]
    ∧ 0 + rd ((table [slot1_rec, many_strings 1]).take 31) (0 + 1) + 2 ≤ 24 ∧ 0 + 6 ≤ 24
    ∧ 24 ≤ 31 :=
  have h : loop_body ((table [slot1_rec, many_strings 1]).take 31) 31 ⟨true, 0, 0, 0, 0⟩ 0 2
      = .next 24 0 [.line 0 2 3 1 (some [0x53, 0x6c, 0x6f, 0x74, 0x31])] := by decide
  ⟨h, (walk_terminates_with_progress (table [slot1_rec, many_strings 1]) 31
    ⟨true, 0, 0, 0, 0⟩).2.1 0 2 24 0 _ h⟩

/-! ## How the walk ends -/

theorem entries_eq_nil (rs : List Rec) (hno : ∀ r ∈ rs, ¬ r.decodable) : entries rs = [] := by
  induction rs with
  | nil => rfl
  | cons r rs ih =>
    rw [entries_cons, if_neg (hno r (List.mem_cons_self _ _))]
    exact ih (fun x hx => hno x (List.mem_cons_of_mem _ hx))

/-- C15 (as amended): on a table of well-formed records (at most 254 strings
each) none of which is a record of interest, the scan in `-a` mode ends without
error, prints nothing and returns 2; that is the very outcome of a scan for an
address on the same table, which also prints nothing and returns 2. -/
theorem no_line_returns_two (rs : List Rec) (qall qbdf : pci_bdf) (hall : qall.all = true)
    (hq : qbdf.all = false) (hwf : ∀ r ∈ rs, r.WellFormed ∧ r.strings.length ≤ 254)
    (hno : ∀ r ∈ rs, ¬ r.decodable) :
    decode_dmi (table rs) (table rs).length qall = some ⟨[], .returned 2⟩
    ∧ decode_dmi (table rs) (table rs).length qbdf = some ⟨[], .returned 2⟩
    ∧ decode_dmi (table rs) (table rs).length qall
        = decode_dmi (table rs) (table rs).length qbdf := by
  have h1 := decode_dmi_table_all rs qall hall hwf
  rw [entries_eq_nil rs hno] at h1
  have h2 := (decode_dmi_table_exact qbdf hq).2 rs hwf (fun x hx h => hno x hx h.1)
  simp only [if_true] at h1
  exact ⟨h1, h2, h1.trans h2.symm⟩

/-- C15, the claim fails: on the table of one type-1 record the scan in `-a`
mode returns 2 and not 0, the same as the scan for the address 0000:02:03.1. -/
theorem wildcard_without_line_is_not_found :
    (many_strings 1).WellFormed ∧ ¬ (many_strings 1).decodable
    ∧ decode_dmi (table [many_strings 1]) 7 ⟨true, 0, 0, 0, 0⟩ = some ⟨[], .returned 2⟩
    ∧ decode_dmi (table [many_strings 1]) 7 ⟨false, 0, 2, 3, 1⟩ = some ⟨[], .returned 2⟩ := by
  refine ⟨many_strings_wf 1 (by decide), by decide, by decide, by decide⟩

set_option maxRecDepth 8000 in
/-- C15 (as amended), an instance: a type-1 record and a type-9 record of
length 0x0F. -/
theorem no_line_returns_two_witness :
    (⟨true, 0, 0, 0, 0⟩ : pci_bdf).all = true ∧ (⟨false, 0, 2, 3, 1⟩ : pci_bdf).all = false
    ∧ (∀ r ∈ [many_strings 3, short_slot_rec], r.WellFormed ∧ r.strings.length ≤ 254)
    ∧ (∀ r ∈ [many_strings 3, short_slot_rec], ¬ r.decodable)
    ∧ decode_dmi (table [many_strings 3, short_slot_rec])
        (table [many_strings 3, short_slot_rec]).length ⟨true, 0, 0, 0, 0⟩
        = some ⟨[], .returned 2⟩ :=
  ⟨rfl, rfl, by decide, by decide,
    (no_line_returns_two [many_strings 3, short_slot_rec] ⟨true, 0, 0, 0, 0⟩
      ⟨false, 0, 2, 3, 1⟩ rfl rfl (by decide) (by decide)).1⟩

/-- The run of `decode_dmi` when a loop head is reached at which the loop
condition `pcur + 4 < pend` fails. -/
theorem decode_dmi_ends_of_reached (file : List Byte) (len : Nat) (qbdf : pci_bdf)
    (hlen : len ≤ file.length) (s ret : Nat) (out : List Output)
    (hreach : Reached (file.take len) len qbdf s ret out) (h5 : ¬ s + 4 < len) :
    decode_dmi file len qbdf = some ⟨out, .returned ret⟩ := by
  have := decode_dmi_of_reached file len qbdf hlen s ret out hreach 1 _
    (walk_at_end _ len qbdf s ret h5)
  simpa [prepend] using this

theorem slot_check_brk (buf : List Byte) (qbdf : pci_bdf) (start type len pcur ret r : Nat)
    (strings : List (Option Nat)) (o : List Output)
    (h : slot_check buf qbdf start type len pcur strings ret = .brk o r) : o ≠ [] := by
  unfold slot_check at h
  simp only at h
  split_ifs at h
  simp only [Step.brk.injEq] at h
  rw [← h.1]
  exact List.cons_ne_nil _ _

theorem loop_body_brk (buf : List Byte) (pend : Nat) (qbdf : pci_bdf) (s ret r : Nat)
    (o : List Output) (h : loop_body buf pend qbdf s ret = .brk o r) : o ≠ [] := by
  by_cases h1 : rd buf (s + 1) < 4
  · simp [loop_body, h1] at h
  by_cases h2 : s + rd buf (s + 1) ≥ pend
  · simp [loop_body, h1, h2] at h
  cases e : scan_strings buf pend 255 0 (s + rd buf (s + 1)) with
  | error er => simp [loop_body, h1, h2, e] at h
  | ok v =>
    obtain ⟨q, strs⟩ := v
    rw [loop_body_ok buf pend qbdf s ret q strs (by omega) (by omega) e] at h
    exact slot_check_brk _ _ _ _ _ _ _ _ _ _ h

/-- One unit of the bound of `walk` is one test of the loop condition and at
most one pass: the walk ends there with `return ret` and nothing printed
exactly when the loop condition fails. -/
theorem walk_one_ends_iff (buf : List Byte) (pend : Nat) (qbdf : pci_bdf) (s ret : Nat) :
    walk buf pend qbdf 1 s ret = some ⟨[], .returned ret⟩ ↔ ¬ s + 4 < pend := by
  constructor
  · intro h hlt
    simp only [walk, if_pos hlt] at h
    cases hb : loop_body buf pend qbdf s ret with
    | bad e => simp [hb] at h
    | next p r o => simp [hb] at h
    | brk o r =>
      simp only [hb, Option.some.injEq, Result.mk.injEq] at h
      exact loop_body_brk _ _ _ _ _ _ _ hb h.1
  · intro h
    exact walk_at_end buf pend qbdf s ret h

/-- C16 (as amended): at a loop head reached by the walk, the scan ends there
normally, with `return ret` and without a further pass, if and only if at most
4 bytes remain before the buffer end (cursor + 4 >= buffer end); when 5 or more
bytes remain the header is read and the record checks are applied: a declared
length below 4 ends the scan with MalformedRecord, and a declared length of at
least 4 that reaches the buffer end ends it with RecordOverflow. -/
theorem loop_ends_iff_at_most_four_left (file : List Byte) (len : Nat) (qbdf : pci_bdf)
    (hlen : len ≤ file.length) (s ret : Nat) (out : List Output)
    (hreach : Reached (file.take len) len qbdf s ret out) :
    (walk (file.take len) len qbdf 1 s ret = some ⟨[], .returned ret⟩ ↔ len - s ≤ 4)
    ∧ (len - s ≤ 4 → decode_dmi file len qbdf = some ⟨out, .returned ret⟩)
    ∧ (4 < len - s → rd file (s + 1) < 4 →
        decode_dmi file len qbdf = some ⟨out, .bad_table .MalformedRecord⟩)
    ∧ (4 < len - s → 4 ≤ rd file (s + 1) → len ≤ s + rd file (s + 1) →
        decode_dmi file len qbdf = some ⟨out, .bad_table .RecordOverflow⟩) := by
  refine ⟨?_, ?_, ?_, ?_⟩
  · rw [walk_one_ends_iff]
    omega
  · intro h
    exact decode_dmi_ends_of_reached file len qbdf hlen s ret out hreach (by omega)
  · intro h h1
    apply decode_dmi_bad_of_reached file len qbdf hlen s ret out hreach (by omega)
    apply loop_body_short
    rw [rd_take _ _ _ (by omega)]
    exact h1
  · intro h h1 h2
    have e1 : rd (file.take len) (s + 1) = rd file (s + 1) := rd_take _ _ _ (by omega)
    apply decode_dmi_bad_of_reached file len qbdf hlen s ret out hreach (by omega)
    rw [loop_body_overflow_iff _ _ _ _ _ (by rw [e1]; exact h1), e1]
    exact h2

/-- C16, the claim fails: behind the record `slot1_rec` exactly 4 bytes remain,
a header with declared length 200; the header is not read, no record check is
applied, and the scan ends normally. -/
theorem four_bytes_left_not_read :
    Reached ((slot1_rec.encode ++ [7, 200, 0, 0]).take 28) 28 ⟨true, 0, 0, 0, 0⟩ 24 0
        [.line 0 2 3 1 (some [0x53, 0x6c, 0x6f, 0x74, 0x31])]
    ∧ 28 - 24 = 4
    ∧ decode_dmi (slot1_rec.encode ++ [7, 200, 0, 0]) 28 ⟨true, 0, 0, 0, 0⟩
        = some ⟨[.line 0 2 3 1 (some [0x53, 0x6c, 0x6f, 0x74, 0x31])], .returned 0⟩ :=
  ⟨@Steps.head _ _ _ 0 2 24 0 24 0 [.line 0 2 3 1 (some [0x53, 0x6c, 0x6f, 0x74, 0x31])] []
      (by decide) (by decide) (Steps.refl 24 0), rfl, by decide⟩

/-- C16 (as amended), an instance: behind the record `slot1_rec`, 5 bytes of
which the second is 3. -/
theorem loop_ends_iff_at_most_four_left_witness :
    29 ≤ (slot1_rec.encode ++ [7, 3, 0, 0, 0]).length
    ∧ Reached ((slot1_rec.encode ++ [7, 3, 0, 0, 0]).take 29) 29 ⟨true, 0, 0, 0, 0⟩ 24 0
        [.line 0 2 3 1 (some [0x53, 0x6c, 0x6f, 0x74, 0x31])]
    ∧ decode_dmi (slot1_rec.encode ++ [7, 3, 0, 0, 0]) 29 ⟨true, 0, 0, 0, 0⟩
        = some ⟨[.line 0 2 3 1 (some [0x53, 0x6c, 0x6f, 0x74, 0x31])],
            .bad_table .MalformedRecord⟩ :=
  have hreach : Reached ((slot1_rec.encode ++ [7, 3, 0, 0, 0]).take 29) 29
      ⟨true, 0, 0, 0, 0⟩ 24 0 [.line 0 2 3 1 (some [0x53, 0x6c, 0x6f, 0x74, 0x31])] :=
    @Steps.head _ _ _ 0 2 24 0 24 0 [.line 0 2 3 1 (some [0x53, 0x6c, 0x6f, 0x74, 0x31])] []
      (by decide) (by decide) (Steps.refl 24 0)
  ⟨by decide, hreach,
    (loop_ends_iff_at_most_four_left _ 29 _ (by decide) 24 0 _ hreach).2.2.1 (by decide)
      (by decide)⟩

/-! ## The checksum byte -/

theorem rd_set_ne (file : List Byte) (i j : Nat) (c : Byte) (h : i ≠ j) :
    rd (file.set i c) j = rd file j := by
  simp [rd, List.getD_eq_getElem?_getD, List.getElem?_set_ne h]

theorem rdc_set_ne (file : List Byte) (i j : Nat) (c : Byte) (h : i ≠ j) :
    rdc (file.set i c) j = rdc file j := by
  simp only [rdc, rd_set_ne file i j c h]

theorem take_set_ge (l : List Byte) (i k : Nat) (c : Byte) (h : k ≤ i) :
    (l.set i c).take k = l.take k := by
  induction l generalizing i k with
  | nil => simp
  | cons b l ih =>
    cases k with
    | zero => simp
    | succ k =>
      obtain ⟨j, rfl⟩ : ∃ j, i = j + 1 := ⟨i - 1, by omega⟩
      simp [List.set, ih j k (by omega)]

theorem anchor32_set (file : List Byte) (i : Nat) (c : Byte) (hi : 4 ≤ i) :
    anchor32 <+: file.set i c ↔ anchor32 <+: file := by
  rw [List.prefix_iff_eq_take, List.prefix_iff_eq_take]
  have : (file.set i c).take anchor32.length = file.take anchor32.length := by
    exact take_set_ge file i _ c hi
  rw [this]

theorem anchor64_set (file : List Byte) (i : Nat) (c : Byte) (hi : 5 ≤ i) :
    anchor64 <+: file.set i c ↔ anchor64 <+: file := by
  rw [List.prefix_iff_eq_take, List.prefix_iff_eq_take]
  have : (file.set i c).take anchor64.length = file.take anchor64.length := by
    exact take_set_ge file i _ c hi
  rw [this]

/-- With the anchor `_SM_` the byte at offset 4 has no influence. -/
theorem read_entrypoint_set4 (file : List Byte) (c : Byte) (ha : anchor32 <+: file) :
    read_entrypoint (file.set 4 c) = read_entrypoint file
    ∧ entry_mode ((file.set 4 c).take 8) = entry_mode (file.take 8) := by
  by_cases h8 : 8 ≤ file.length
  · have h8s : 8 ≤ (file.set 4 c).length := by rw [List.length_set]; exact h8
    have has := (anchor32_set file 4 c (Nat.le_refl _)).2 ha
    obtain ⟨m1, r1⟩ := read_entrypoint_32 file h8 ha
    obtain ⟨m2, r2⟩ := read_entrypoint_32 (file.set 4 c) h8s has
    refine ⟨?_, m2.trans m1.symm⟩
    rw [r1, r2]
    simp only [rd16, rd32, List.length_set]
    rw [rd_set_ne _ 4 5 c (by decide), rdc_set_ne _ 4 6 c (by decide),
      rdc_set_ne _ 4 7 c (by decide), rd_set_ne _ 4 0x16 c (by decide),
      rd_set_ne _ 4 (0x16 + 1) c (by decide), rd_set_ne _ 4 0x18 c (by decide),
      rd_set_ne _ 4 (0x18 + 1) c (by decide), rd_set_ne _ 4 (0x18 + 2) c (by decide),
      rd_set_ne _ 4 (0x18 + 2 + 1) c (by decide)]
  · have e : ∀ f : List Byte, f.length < 8 → read_entrypoint f = .error .TooShort := by
      intro f hf
      simp [read_entrypoint, hf]
    rw [e _ (by rw [List.length_set]; omega), e _ (by omega)]
    refine ⟨rfl, ?_⟩
    obtain ⟨t, rfl⟩ := ha
    simp only [anchor32, List.cons_append, List.nil_append]
    cases t with
    | nil => rfl
    | cons b t => rfl

/-- With the anchor `_SM3_` the byte at offset 5 has no influence. -/
theorem read_entrypoint_set5 (file : List Byte) (c : Byte) (ha : anchor64 <+: file) :
    read_entrypoint (file.set 5 c) = read_entrypoint file
    ∧ entry_mode ((file.set 5 c).take 8) = entry_mode (file.take 8) := by
  by_cases h8 : 8 ≤ file.length
  · have h8s : 8 ≤ (file.set 5 c).length := by rw [List.length_set]; exact h8
    have has := (anchor64_set file 5 c (Nat.le_refl _)).2 ha
    obtain ⟨m1, r1⟩ := read_entrypoint_64 file h8 ha
    obtain ⟨m2, r2⟩ := read_entrypoint_64 (file.set 5 c) h8s has
    refine ⟨?_, m2.trans m1.symm⟩
    rw [r1, r2]
    simp only [rd16, rd32, rd64, List.length_set]
    have e : ∀ j, 5 ≠ j → rd (file.set 5 c) j = rd file j := fun j hj => rd_set_ne _ 5 j c hj
    rw [e 6 (by decide), rdc_set_ne _ 5 7 c (by decide), rdc_set_ne _ 5 8 c (by decide),
      rdc_set_ne _ 5 9 c (by decide)]
    simp only [e _ (show 5 ≠ 0x0c by decide), e _ (show 5 ≠ 0x0c + 1 by decide),
      e _ (show 5 ≠ 0x0c + 2 by decide), e _ (show 5 ≠ 0x0c + 2 + 1 by decide),
      e _ (show 5 ≠ 0x10 by decide), e _ (show 5 ≠ 0x10 + 1 by decide),
      e _ (show 5 ≠ 0x10 + 2 by decide), e _ (show 5 ≠ 0x10 + 2 + 1 by decide),
      e _ (show 5 ≠ 0x10 + 4 by decide), e _ (show 5 ≠ 0x10 + 4 + 1 by decide),
      e _ (show 5 ≠ 0x10 + 4 + 2 by decide), e _ (show 5 ≠ 0x10 + 4 + 2 + 1 by decide)]
  · have e : ∀ f : List Byte, f.length < 8 → read_entrypoint f = .error .TooShort := by
      intro f hf
      simp [read_entrypoint, hf]
    rw [e _ (by rw [List.length_set]; omega), e _ (by omega)]
    refine ⟨rfl, ?_⟩
    obtain ⟨t, rfl⟩ := ha
    simp only [anchor64, List.cons_append, List.nil_append]
    cases t with
    | nil => rfl
    | cons b t => rfl

/-- C18: the checksum byte, the byte that follows the anchor (offset 4 after
`_SM_`, offset 5 after `_SM3_`), is ignored: two files that differ only in that
byte get the same result of `read_entrypoint`, the same error or the same
header, and through the same branch (`mode64bit`). -/
theorem checksum_ignored (file : List Byte) (c : Byte) :
    (anchor32 <+: file →
      read_entrypoint (file.set 4 c) = read_entrypoint file
      ∧ entry_mode ((file.set 4 c).take 8) = entry_mode (file.take 8))
    ∧ (anchor64 <+: file →
      read_entrypoint (file.set 5 c) = read_entrypoint file
      ∧ entry_mode ((file.set 5 c).take 8) = entry_mode (file.take 8)) :=
  ⟨read_entrypoint_set4 file c, read_entrypoint_set5 file c⟩

/-! ## Where the length byte is -/

/-- A successful `read_entrypoint` has seen one of the two anchors, and the byte
it tested as length (offset 5 resp. 6) passed the tests. -/
theorem read_entrypoint_ok_cases (file : List Byte) (h : sm_header)
    (hok : read_entrypoint file = .ok h) :
    8 ≤ file.length ∧
      ((anchor32 <+: file ∧ 0x1E ≤ rd file 5 ∧ rd file 5 < 0x24 ∧ rd file 5 ≤ file.length)
        ∨ (anchor64 <+: file ∧ 0x18 ≤ rd file 6 ∧ rd file 6 < 0x24
            ∧ rd file 6 ≤ file.length)) := by
  by_cases h8 : 8 ≤ file.length
  · refine ⟨h8, ?_⟩
    by_cases h32 : anchor32 <+: file
    · rw [(read_entrypoint_32 file h8 h32).2] at hok
      split_ifs at hok with c1 c2
      exact Or.inl ⟨h32, by omega, by omega, by omega⟩
    · by_cases h64 : anchor64 <+: file
      · rw [(read_entrypoint_64 file h8 h64).2] at hok
        split_ifs at hok with c1 c2
        exact Or.inr ⟨h64, by omega, by omega, by omega⟩
      · rw [read_entrypoint_bad_anchor file h8 h32 h64] at hok
        cases hok
  · simp [read_entrypoint, Nat.lt_of_not_le h8] at hok

/-- The bytes behind the declared length have no influence (32-bit format). -/
theorem read_entrypoint_take_32 (file : List Byte) (ha : anchor32 <+: file)
    (hlo : 0x1E ≤ rd file 5) (hhi : rd file 5 < 0x24) (hl : rd file 5 ≤ file.length) :
    read_entrypoint (file.take (rd file 5)) = read_entrypoint file := by
  have h8 : 8 ≤ file.length := by omega
  have hlen : (file.take (rd file 5)).length = rd file 5 := by
    rw [List.length_take]; omega
  have hat : anchor32 <+: file.take (rd file 5) := by
    rw [List.prefix_take_iff]
    exact ⟨ha, by simp [anchor32]; omega⟩
  have e : ∀ i, i < 0x1E → rd (file.take (rd file 5)) i = rd file i :=
    fun i hi => rd_take _ _ _ (by omega)
  rw [(read_entrypoint_32 file h8 ha).2, (read_entrypoint_32 _ (by omega) hat).2]
  simp only [hlen, rd16, rd32, e 5 (by decide), rdc_take file (rd file 5) 6 (by omega),
    rdc_take file (rd file 5) 7 (by omega),
    e 0x16 (by decide), e (0x16 + 1) (by decide), e 0x18 (by decide), e (0x18 + 1) (by decide),
    e (0x18 + 2) (by decide), e (0x18 + 2 + 1) (by decide)]
  rw [if_neg (by omega), if_neg (by omega), if_neg (by omega), if_neg (by omega)]

/-- The bytes behind the declared length have no influence (64-bit format). -/
theorem read_entrypoint_take_64 (file : List Byte) (ha : anchor64 <+: file)
    (hlo : 0x18 ≤ rd file 6) (hhi : rd file 6 < 0x24) (hl : rd file 6 ≤ file.length) :
    read_entrypoint (file.take (rd file 6)) = read_entrypoint file := by
  have h8 : 8 ≤ file.length := by omega
  have hlen : (file.take (rd file 6)).length = rd file 6 := by
    rw [List.length_take]; omega
  have hat : anchor64 <+: file.take (rd file 6) := by
    rw [List.prefix_take_iff]
    exact ⟨ha, by simp [anchor64]; omega⟩
  have e : ∀ i, i < 0x18 → rd (file.take (rd file 6)) i = rd file i :=
    fun i hi => rd_take _ _ _ (by omega)
  rw [(read_entrypoint_64 file h8 ha).2, (read_entrypoint_64 _ (by omega) hat).2]
  simp only [hlen, rd16, rd32, rd64, e 6 (by decide), rdc_take file (rd file 6) 7 (by omega),
    rdc_take file (rd file 6) 8 (by omega), rdc_take file (rd file 6) 9 (by omega),
    e 0x0c (by decide), e (0x0c + 1) (by decide), e (0x0c + 2) (by decide),
    e (0x0c + 2 + 1) (by decide), e 0x10 (by decide), e (0x10 + 1) (by decide),
    e (0x10 + 2) (by decide), e (0x10 + 2 + 1) (by decide), e (0x10 + 4) (by decide),
    e (0x10 + 4 + 1) (by decide), e (0x10 + 4 + 2) (by decide),
    e (0x10 + 4 + 2 + 1) (by decide)]
  rw [if_neg (by omega), if_neg (by omega), if_neg (by omega), if_neg (by omega)]

/-- C17 (as amended): a file accepted by `read_entrypoint` starts with one of
the two anchors.  With `_SM_` the length that is tested and used is the byte at
offset 5 (at least 0x1E, below 0x24, that many bytes present, and only that
many bytes matter), and the byte at offset 4 is the ignored checksum.  With
`_SM3_` the length is the byte at offset 6, tested against 0x18 and 0x24, and the
ignored checksum is the byte at offset 5; offset 4 holds the last character of
the anchor. -/
theorem length_and_checksum_offsets (file : List Byte) (h : sm_header)
    (hok : read_entrypoint file = .ok h) :
    (anchor32 <+: file ∨ anchor64 <+: file)
    ∧ (anchor32 <+: file →
        0x1E ≤ rd file 5 ∧ rd file 5 < 0x24 ∧ rd file 5 ≤ file.length
        ∧ read_entrypoint (file.take (rd file 5)) = .ok h
        ∧ ∀ c, read_entrypoint (file.set 4 c) = .ok h)
    ∧ (anchor64 <+: file →
        0x18 ≤ rd file 6 ∧ rd file 6 < 0x24 ∧ rd file 6 ≤ file.length
        ∧ rd file 4 = 0x5F
        ∧ read_entrypoint (file.take (rd file 6)) = .ok h
        ∧ ∀ c, read_entrypoint (file.set 5 c) = .ok h) := by
  obtain ⟨h8, hc⟩ := read_entrypoint_ok_cases file h hok
  refine ⟨hc.elim (fun x => Or.inl x.1) (fun x => Or.inr x.1), ?_, ?_⟩
  · intro ha
    rcases hc with ⟨-, h1, h2, h3⟩ | ⟨hb, -⟩
    · refine ⟨h1, h2, h3, ?_, fun c => ?_⟩
      · rw [read_entrypoint_take_32 file ha h1 h2 h3, hok]
      · rw [(read_entrypoint_set4 file c ha).1, hok]
    · exact (anchor_exclusive file ha hb).elim
  · intro ha
    rcases hc with ⟨hb, -⟩ | ⟨-, h1, h2, h3⟩
    · exact (anchor_exclusive file hb ha).elim
    · refine ⟨h1, h2, h3, ((anchor64_iff file h8).1 ha).2.2.2.2, ?_, fun c => ?_⟩
      · rw [read_entrypoint_take_64 file ha h1 h2 h3, hok]
      · rw [(read_entrypoint_set5 file c ha).1, hok]

/-- C17, the claim fails: the 64-bit entry point `ep64` is accepted although its
byte at offset 5 is 0xC3, no admissible length; its length byte 0x18 is at
offset 6; and its byte at offset 4 is not ignored: with another value there the
file is rejected. -/
theorem length_byte_of_64bit_is_at_six :
    read_entrypoint ep64 = .ok ⟨0, (3, 2, 1), 0x12345, 0x123456789⟩
    ∧ rd ep64 5 = 0xC3 ∧ rd ep64 6 = 0x18
    ∧ read_entrypoint (ep64.set 4 0) = .error .BadSignature :=
  ⟨by rfl, by decide, by decide, by rfl⟩

/-- C17 (as amended), an instance: the entry point `ep64`. -/
theorem length_and_checksum_offsets_witness :
    read_entrypoint ep64 = .ok ⟨0, (3, 2, 1), 0x12345, 0x123456789⟩
    ∧ 0x18 ≤ rd ep64 6 ∧ rd ep64 6 < 0x24
    ∧ read_entrypoint (ep64.set 5 0x77) = .ok ⟨0, (3, 2, 1), 0x12345, 0x123456789⟩ :=
  have hok : read_entrypoint ep64 = .ok ⟨0, (3, 2, 1), 0x12345, 0x123456789⟩ := by rfl
  have h := (length_and_checksum_offsets ep64 _ hok).2.2 (by decide)
  ⟨hok, h.1, h.2.1, h.2.2.2.2.2 0x77⟩

/-! ## Any well-formed record -/

/-- The part of the loop body behind the string area, for a record that sits in
the buffer behind `a`, whatever the string loop has left in `pcur` and
`strings`. -/
theorem slot_check_record (r : Rec) (a post : List Byte) (qbdf : pci_bdf) (pcur ret : Nat)
    (strs : List (Option Nat)) (h4 : 4 ≤ r.declared_len.val)
    (hbody : r.body.length + 4 = r.declared_len.val) :
    slot_check (a ++ r.encode ++ post) qbdf a.length r.type.val r.declared_len.val pcur strs ret
      = if r.decodable then
          if qbdf.all then
            .next pcur 0 [.line (rd r.encode 0x0d + 256 * rd r.encode 0x0e) (rd r.encode 0x0f)
              (rd r.encode 0x10 / 8) (rd r.encode 0x10 % 8)
              ((slot_name_of strs (rd r.encode 0x04)).map (cstr (a ++ r.encode ++ post)))]
          else if r.matches qbdf then
            .brk [.name ((slot_name_of strs (rd r.encode 0x04)).map
              (cstr (a ++ r.encode ++ post)))] 0
          else .next pcur ret []
        else .next pcur ret [] := by
  have hsa := str_area_length_pos r.strings
  have hel := r.encode_length
  have hrd := rd_record r a post
  by_cases hd : r.decodable
  · obtain ⟨ht, hl, hp⟩ := hd
    have e4 := hrd 0x04 (by omega)
    have e5 := hrd 0x05 (by omega)
    have ed := hrd 0x0d (by omega)
    have ee := hrd 0x0e (by omega)
    have ef := hrd 0x0f (by omega)
    have e10 := hrd 0x10 (by omega)
    rw [if_pos (show r.decodable from ⟨ht, hl, hp⟩), ht,
      slot_check_decoded _ _ _ _ _ _ _ hl (by rw [e5]; exact (pci_slot_type_iff _).2 hp)]
    simp only [e4, ed, ee, ef, e10, Rec.matches]
  · rw [if_neg hd]
    unfold slot_check
    by_cases ht : r.type.val = 9
    · rw [if_pos ht]
      by_cases hl : r.declared_len.val < 0x10
      · simp only [if_pos hl]
      · have e5 := hrd 0x05 (by omega)
        have hp : ¬ pci_slot_type (rd r.encode 0x05) = true := fun h =>
          hd ⟨ht, by omega, (pci_slot_type_iff _).1 h⟩
        simp only [if_neg hl, e5, hp, Bool.false_eq_true, if_false]
    · rw [if_neg ht]

theorem slot_name_of_ptrs (ss : List (List Byte)) (a rest : List Byte) (i : Nat)
    (hwf : ∀ s ∈ ss, s ≠ [] ∧ ∀ c ∈ s, c ≠ 0) :
    (slot_name_of (str_ptrs a.length ss) i).map (cstr (a ++ str_bytes ss ++ 0 :: rest))
      = if 1 ≤ i ∧ i ≤ 254 then ss[i - 1]? else none := by
  unfold slot_name_of
  by_cases h : 1 ≤ i ∧ i ≤ 254
  · rw [if_pos h, if_pos ⟨by omega, by omega⟩]
    exact str_ptrs_lookup ss a rest (i - 1) hwf
  · rw [if_neg h, if_neg (fun x => h ⟨by omega, by omega⟩)]
    rfl

/-- One pass of the loop body over any well-formed record. -/
theorem loop_body_wf_record (r : Rec) (a post : List Byte) (qbdf : pci_bdf) (ret : Nat)
    (hwf : r.WellFormed) :
    loop_body (a ++ r.encode ++ post) (a ++ r.encode ++ post).length qbdf a.length ret
      = if r.decodable then
          if qbdf.all then
            .next (r.cursor_after a.length) 0
              [.line (rd r.encode 0x0d + 256 * rd r.encode 0x0e) (rd r.encode 0x0f)
                (rd r.encode 0x10 / 8) (rd r.encode 0x10 % 8) r.printed_name]
          else if r.matches qbdf then .brk [.name r.printed_name] 0
          else .next (r.cursor_after a.length) ret []
        else .next (r.cursor_after a.length) ret [] := by
  by_cases hk : r.strings.length ≤ 254
  · have hc : r.cursor_after a.length = a.length + r.encode.length := by
      simp only [Rec.cursor_after, if_neg (show ¬ r.strings.length = 255 by omega), Nat.sub_zero]
    have hn : r.printed_name = r.slot_name := by
      unfold Rec.printed_name Rec.slot_name
      by_cases h0 : rd r.encode 0x04 = 0
      · rw [if_pos h0, if_neg (by omega)]
      · rw [if_neg h0]
        by_cases h5 : rd r.encode 0x04 ≤ 254
        · rw [if_pos ⟨by omega, h5⟩]
        · rw [if_neg (fun x => h5 x.2), List.getElem?_eq_none (by omega)]
    rw [loop_body_record r a post qbdf ret hwf hk, hc, hn]
    rfl
  · obtain ⟨h4, hbody, h255, hstr⟩ := hwf
    have hk : r.strings.length = 255 := by omega
    have hne : r.strings ≠ [] := fun h => by rw [h] at hk; simp at hk
    have hbuf : a ++ r.encode ++ post
        = a ++ r.type :: r.declared_len :: r.handle_lo :: r.handle_hi :: r.body
            ++ str_bytes r.strings ++ 0 :: post := by
      simp [Rec.encode, str_area, hne]
    have hlb := loop_body_255_strings a r.body (0 :: post) r.type r.declared_len r.handle_lo
      r.handle_hi r.strings qbdf ret h4 hbody hstr hk
    rw [← hbuf] at hlb
    have hsc := slot_check_record r a post qbdf
      (a.length + r.declared_len.val + (str_bytes r.strings).length)
      ret (str_ptrs (a.length + r.declared_len.val) r.strings) h4 hbody
    have hF : (a ++ r.type :: r.declared_len :: r.handle_lo :: r.handle_hi :: r.body).length
        = a.length + r.declared_len.val := by
      simp only [List.length_append, List.length_cons]
      omega
    have hname := slot_name_of_ptrs r.strings
      (a ++ r.type :: r.declared_len :: r.handle_lo :: r.handle_hi :: r.body) post
      (rd r.encode 0x04) hstr
    rw [← hbuf, hF] at hname
    have hc : r.cursor_after a.length
        = a.length + r.declared_len.val + (str_bytes r.strings).length := by
      have hel := r.encode_length
      have hsa : (str_area r.strings).length = (str_bytes r.strings).length + 1 := by
        simp [str_area, hne]
      simp only [Rec.cursor_after, if_pos hk]
      omega
    rw [hlb, hsc, hname, hc]
    rfl

/-! ## The claims about single records -/

/-- C12: in the pass over a well-formed record, the address is decoded and
printed or compared with the query exactly when the record has type 9, declared
length at least 0x10 and a slot type among 0x06, 0x0E, 0x12, 0x1F to 0x23 or in
0xA5..0xB6: then `-a` mode prints its line and a query is compared with its
address.  Any other record is passed over: nothing is printed, `ret` stays, no
error is raised, whatever the query is. -/
theorem decode_iff_record_of_interest (r : Rec) (a post : List Byte) (qbdf : pci_bdf)
    (ret : Nat) (hwf : r.WellFormed) :
    (r.decodable ↔ r.type.val = 9 ∧ 0x10 ≤ r.declared_len.val
      ∧ (rd r.encode 0x05 ∈ [0x06, 0x0E, 0x12, 0x1F, 0x20, 0x21, 0x22, 0x23]
          ∨ (0xA5 ≤ rd r.encode 0x05 ∧ rd r.encode 0x05 ≤ 0xB6)))
    ∧ (r.decodable → ∃ p name,
        loop_body (a ++ r.encode ++ post) (a ++ r.encode ++ post).length qbdf a.length ret
          = if qbdf.all then
              .next p 0 [.line (rd r.encode 0x0d + 256 * rd r.encode 0x0e) (rd r.encode 0x0f)
                (rd r.encode 0x10 / 8) (rd r.encode 0x10 % 8) name]
            else if r.matches qbdf then .brk [.name name] 0
            else .next p ret [])
    ∧ (¬ r.decodable → ∃ p,
        loop_body (a ++ r.encode ++ post) (a ++ r.encode ++ post).length qbdf a.length ret
          = .next p ret []) := by
  have h := loop_body_wf_record r a post qbdf ret hwf
  refine ⟨Iff.rfl, fun hd => ⟨r.cursor_after a.length, r.printed_name, ?_⟩,
    fun hd => ⟨r.cursor_after a.length, ?_⟩⟩
  · rw [h, if_pos hd]
  · rw [h, if_neg hd]

set_option maxRecDepth 20000 in
/-- C12, an instance: the type-9 record `short_slot_rec` of length 0x0F is
passed over, in `-a` mode too. -/
theorem decode_iff_record_of_interest_witness :
    short_slot_rec.WellFormed ∧ short_slot_rec.type.val = 9
    ∧ short_slot_rec.declared_len.val = 0x0F ∧ ¬ short_slot_rec.decodable
    ∧ ∃ p, loop_body ([] ++ short_slot_rec.encode ++ [])
        ([] ++ short_slot_rec.encode ++ []).length ⟨true, 0, 0, 0, 0⟩ 0 2 = .next p 2 [] :=
  ⟨by decide, rfl, rfl, by decide,
    (decode_iff_record_of_interest short_slot_rec [] [] ⟨true, 0, 0, 0, 0⟩ 2 (by decide)).2.2
      (by decide)⟩

/-- C14 (as amended): for a well-formed record of interest with slot name
index i (the byte at record offset 0x04), the slot name that is printed, in
`-a` mode and for a matching query alike, is the i-th string of the string area
when 1 <= i <= 254 and the record has at least i strings; it is unset when i is
0, when i is 255, and when i exceeds the number of strings; none of this is an
error. -/
theorem slot_name_by_index (r : Rec) (a post : List Byte) (qbdf : pci_bdf) (ret : Nat)
    (hwf : r.WellFormed) (hd : r.decodable) :
    (∃ p name,
      loop_body (a ++ r.encode ++ post) (a ++ r.encode ++ post).length qbdf a.length ret
        = (if qbdf.all then
            .next p 0 [.line (rd r.encode 0x0d + 256 * rd r.encode 0x0e) (rd r.encode 0x0f)
              (rd r.encode 0x10 / 8) (rd r.encode 0x10 % 8) name]
          else if r.matches qbdf then .brk [.name name] 0
          else .next p ret [])
      ∧ (∀ s, 1 ≤ rd r.encode 0x04 → rd r.encode 0x04 ≤ 254 →
          r.strings[rd r.encode 0x04 - 1]? = some s → name = some s)
      ∧ (rd r.encode 0x04 = 0 ∨ rd r.encode 0x04 = 255
          ∨ r.strings.length < rd r.encode 0x04 → name = none)) := by
  have h := loop_body_wf_record r a post qbdf ret hwf
  rw [if_pos hd] at h
  refine ⟨r.cursor_after a.length, r.printed_name, h, ?_, ?_⟩
  · intro s h1 h2 hs
    rw [Rec.printed_name, if_pos ⟨h1, h2⟩, hs]
  · intro hc
    unfold Rec.printed_name
    split_ifs with hi
    · rcases hc with h0 | h0 | h0
      · omega
      · omega
      · exact List.getElem?_eq_none (by omega)
    · rfl

theorem str_area_replicate_length (k : Nat) (c : Byte) (hk : 0 < k) :
    (str_area (List.replicate k [c])).length = 2 * k + 1 := by
  have hne : List.replicate k [c] ≠ [] := fun h => by
    have := congrArg List.length h
    rw [List.length_replicate] at this
    simp at this
    omega
  rw [str_area, if_neg hne, List.length_append, str_bytes_replicate_length]
  rfl

theorem full_slot_rec_wf : full_slot_rec.WellFormed :=
  ⟨by decide, rfl, by rw [full_slot_rec, List.length_replicate], replicate_strings_ok 255⟩

set_option maxRecDepth 100000 in
theorem full_slot_rec_length : full_slot_rec.encode.length = 528 := by
  rw [Rec.encode_length]
  show full_slot_rec.body.length + 4 + (str_area (List.replicate 255 [0x61])).length = 528
  rw [str_area_replicate_length 255 _ (by decide)]
  rfl

set_option maxRecDepth 100000 in
/-- C14, the claim fails: the record `full_slot_rec` has 255 strings and slot
name index 255, yet the line printed for it has no slot name. -/
theorem slot_name_index_255_unset :
    full_slot_rec.WellFormed ∧ full_slot_rec.decodable ∧ rd full_slot_rec.encode 0x04 = 255
    ∧ full_slot_rec.strings.length = 255
    ∧ full_slot_rec.strings[255 - 1]? = some [0x61]
    ∧ decode_dmi (full_slot_rec.encode) 528 ⟨true, 0, 0, 0, 0⟩
        = some ⟨[.line 0 2 3 1 none], .returned 0⟩ := by
  have hd : full_slot_rec.decodable := by decide
  have h := loop_body_wf_record full_slot_rec [] [] ⟨true, 0, 0, 0, 0⟩ 2 full_slot_rec_wf
  rw [if_pos hd, if_pos rfl] at h
  simp only [List.nil_append, List.append_nil, full_slot_rec_length] at h
  have hc : full_slot_rec.cursor_after ([] : List Byte).length = 527 := by
    rw [Rec.cursor_after, full_slot_rec_length,
      if_pos (show full_slot_rec.strings.length = 255 from List.length_replicate _ _)]
    rfl
  have hn : full_slot_rec.printed_name = none := by decide
  have hv : Output.line (rd full_slot_rec.encode 0x0d + 256 * rd full_slot_rec.encode 0x0e)
      (rd full_slot_rec.encode 0x0f) (rd full_slot_rec.encode 0x10 / 8)
      (rd full_slot_rec.encode 0x10 % 8) none = .line 0 2 3 1 none := by decide
  rw [hc, hn, hv] at h
  have ht : full_slot_rec.encode.take 528 = full_slot_rec.encode := by
    have := List.take_length full_slot_rec.encode
    rwa [full_slot_rec_length] at this
  have hr : Reached (full_slot_rec.encode.take 528) 528 ⟨true, 0, 0, 0, 0⟩ 527 0
      [.line 0 2 3 1 none] := by
    rw [ht]
    exact Steps.one (by decide) h
  have hdm := decode_dmi_of_reached full_slot_rec.encode 528 ⟨true, 0, 0, 0, 0⟩
    (by rw [full_slot_rec_length]) 527 0 _ hr 1 _ (walk_at_end _ 528 _ 527 0 (by decide))
  refine ⟨full_slot_rec_wf, hd, by decide, List.length_replicate _ _, ?_, hdm⟩
  rw [full_slot_rec, List.getElem?_replicate]
  rfl

set_option maxRecDepth 20000 in
/-- C14 (as amended), an instance: the record `slot1_rec` has index 1 and the
string `Slot1`. -/
theorem slot_name_by_index_witness :
    slot1_rec.WellFormed ∧ slot1_rec.decodable ∧ rd slot1_rec.encode 0x04 = 1
    ∧ slot1_rec.strings[1 - 1]? = some [0x53, 0x6c, 0x6f, 0x74, 0x31]
    ∧ ∃ p name, loop_body ([] ++ slot1_rec.encode ++ []) ([] ++ slot1_rec.encode ++ []).length
        ⟨true, 0, 0, 0, 0⟩ 0 2 = .next p 0 [.line 0 2 3 1 name]
      ∧ name = some [0x53, 0x6c, 0x6f, 0x74, 0x31] :=
  ⟨by decide, by decide, by decide, rfl,
    match slot_name_by_index slot1_rec [] [] ⟨true, 0, 0, 0, 0⟩ 2 (by decide) (by decide) with
    | ⟨p, name, h, h1, _⟩ => ⟨p, name, h, h1 _ (by decide) (by decide) rfl⟩⟩

set_option maxRecDepth 20000 in
/-- C19, the failing run: the record `edge_slot_rec` has declared length 0x10,
so its formatted area ends at offset 0x0F; the walker decodes it all the same
and takes device and function from offset 0x10, the first byte `S` (0x53) of the
string `Slot1` in the string area: the line reads device 10, function 3. -/
theorem device_byte_read_from_string_area :
    edge_slot_rec.WellFormed ∧ edge_slot_rec.decodable
    ∧ edge_slot_rec.declared_len.val = 0x10 ∧ ¬ (0x10 < edge_slot_rec.declared_len.val)
    ∧ edge_slot_rec.encode.drop 0x10 = [0x53, 0x6c, 0x6f, 0x74, 0x31, 0, 0]
    ∧ str_area edge_slot_rec.strings = [0x53, 0x6c, 0x6f, 0x74, 0x31, 0, 0]
    ∧ decode_dmi (table [edge_slot_rec]) 23 ⟨true, 0, 0, 0, 0⟩
        = some ⟨[.line 0 2 10 3 (some [0x53, 0x6c, 0x6f, 0x74, 0x31])], .returned 0⟩ := by
  refine ⟨by decide, by decide, rfl, by decide, by decide, by decide, by decide⟩

/-! ## No read is out of range -/

theorem rd_chk_ok (buf : List Byte) (pend i : Nat) (h : i < pend) (hb : pend ≤ buf.length) :
    rd_chk buf pend i = .ok (rd buf i) := by
  simp [rd_chk, h, Nat.lt_of_lt_of_le h hb]

theorem rd16_chk_ok (buf : List Byte) (pend i : Nat) (h : i + 1 < pend)
    (hb : pend ≤ buf.length) : rd16_chk buf pend i = .ok (rd16 buf i) := by
  simp only [rd16_chk, rd_chk_ok buf pend i (by omega) hb, rd_chk_ok buf pend (i + 1) h hb, rd16]
  rfl

theorem skip_string_chk_eq (buf : List Byte) (pend fuel p : Nat) (hb : pend ≤ buf.length) :
    skip_string_chk buf pend fuel p = .ok (skip_string buf pend fuel p) := by
  induction fuel generalizing p with
  | zero => rfl
  | succ f ih =>
    simp only [skip_string_chk, skip_string]
    by_cases h : p < pend
    · rw [if_pos h, if_pos h, rd_chk_ok buf pend p h hb]
      show (if rd buf p ≠ 0 then _ else _) = _
      split_ifs
      · exact ih (p + 1)
      · rfl
    · rw [if_neg h, if_neg h]
      rfl

theorem scan_strings_chk_eq (buf : List Byte) (pend k n p : Nat) (hb : pend ≤ buf.length) :
    scan_strings_chk buf pend k n p = .ok (scan_strings buf pend k n p) := by
  induction k generalizing n p with
  | zero => rfl
  | succ k ih =>
    simp only [scan_strings_chk, scan_strings]
    by_cases h : p ≥ pend
    · rw [if_pos h, if_pos h]
      rfl
    · rw [if_neg h, if_neg h, rd_chk_ok buf pend p (by omega) hb]
      show (if rd buf p ≠ 0 then _ else _) = _
      split_ifs with h1 h2
      · rw [skip_string_chk_eq buf pend _ _ hb]
        show (scan_strings_chk buf pend k (n + 1) _ >>= _) = _
        rw [ih]
        generalize scan_strings buf pend k (n + 1) _ = x
        cases x with
        | error e => rfl
        | ok v => rfl
      · rfl
      · show (scan_strings_chk buf pend k (n + 1) _ >>= _) = _
        rw [ih]
        generalize scan_strings buf pend k (n + 1) _ = x
        cases x with
        | error e => rfl
        | ok v => rfl

/-- The loop of line 200, when it stops inside the buffer, has stopped behind
a zero byte and has passed only non-zero bytes before it. -/
theorem skip_string_stop (buf : List Byte) (pend fuel p : Nat) (hf : pend - p ≤ fuel)
    (h : skip_string buf pend fuel p < pend) :
    p < skip_string buf pend fuel p ∧ rd buf (skip_string buf pend fuel p - 1) = 0
      ∧ ∀ i, p ≤ i → i < skip_string buf pend fuel p - 1 → rd buf i ≠ 0 := by
  induction fuel generalizing p with
  | zero =>
    simp only [skip_string] at h
    omega
  | succ f ih =>
    simp only [skip_string] at h ⊢
    by_cases h1 : p < pend
    · rw [if_pos h1] at h ⊢
      by_cases h2 : rd buf p ≠ 0
      · rw [if_pos h2] at h ⊢
        obtain ⟨a, b, c⟩ := ih (p + 1) (by omega) h
        refine ⟨by omega, b, fun i hi hlt => ?_⟩
        by_cases hip : i = p
        · rw [hip]; exact h2
        · exact c i (by omega) hlt
      · rw [if_neg h2] at h ⊢
        refine ⟨by omega, by simpa using h2, fun i hi hlt => ?_⟩
        simp only [Nat.add_sub_cancel] at hlt
        omega
    · rw [if_neg h1] at h
      omega

/-- Every string the string loop has recorded and behind which it has made
another pass is terminated inside the declared length. -/
theorem scan_strings_terminated (buf : List Byte) (pend k n p q : Nat)
    (strs : List (Option Nat)) (h : scan_strings buf pend k n p = .ok (q, strs)) (j pt : Nat)
    (hj : strs.getD j none = some pt) (hk : j + 1 < k) : Terminated buf pend pt := by
  induction k generalizing n p q strs j with
  | zero => omega
  | succ k ih =>
    simp only [scan_strings] at h
    split_ifs at h with h1 h2 h3
    · split at h
      · cases h
      · rename_i q2 strs2 e
        simp only [Except.ok.injEq, Prod.mk.injEq] at h
        obtain ⟨rfl, rfl⟩ := h
        cases j with
        | zero =>
          simp only [List.getD_cons_zero, Option.some.injEq] at hj
          subst hj
          obtain ⟨k2, rfl⟩ : ∃ k2, k = k2 + 1 := ⟨k - 1, by omega⟩
          have hp := scan_strings_pos _ _ _ _ _ _ _ e
          obtain ⟨a, b, c⟩ := skip_string_stop buf pend (pend - (p + 1)) (p + 1)
            (Nat.le_refl _) hp.1
          refine ⟨skip_string buf pend (pend - (p + 1)) (p + 1) - 1, by omega, by omega, b,
            fun i hi hlt => ?_⟩
          by_cases hip : i = p
          · rw [hip]; exact h2
          · exact c i (by omega) hlt
        | succ j =>
          simp only [List.getD_cons_succ] at hj
          exact ih _ _ _ _ e j hj (by omega)
    · simp only [Except.ok.injEq, Prod.mk.injEq] at h
      obtain ⟨-, rfl⟩ := h
      simp at hj
    · split at h
      · cases h
      · rename_i q2 strs2 e
        simp only [Except.ok.injEq, Prod.mk.injEq] at h
        obtain ⟨rfl, rfl⟩ := h
        cases j with
        | zero => simp at hj
        | succ j =>
          simp only [List.getD_cons_succ] at hj
          exact ih _ _ _ _ e j hj (by omega)

theorem takeWhile_nonzero_cons (x : Byte) (l : List Byte) :
    (x :: l).takeWhile (fun b => b ≠ 0)
      = if x.val = 0 then [] else x :: l.takeWhile (fun b => b ≠ 0) := by
  rw [List.takeWhile_cons]
  by_cases hx : x = 0
  · simp [hx]
  · have : x.val ≠ 0 := fun h => hx (Fin.ext h)
    simp [hx, this]

theorem cstr_step (buf : List Byte) (p : Nat) (hp : p < buf.length) :
    cstr buf p = if rd buf p = 0 then [] else buf.getD p 0 :: cstr buf (p + 1) := by
  unfold cstr
  have hd : buf.drop p = buf.getD p 0 :: buf.drop (p + 1) := by
    rw [List.drop_eq_getElem_cons hp]
    congr 1
    simp [List.getD_eq_getElem?_getD, List.getElem?_eq_getElem hp]
  rw [hd, takeWhile_nonzero_cons]
  rfl

/-- The checked reads of `%s` on a terminated string all pass, and give the
string. -/
theorem cstr_chk_eq (buf : List Byte) (pend fuel p e : Nat) (hb : pend ≤ buf.length)
    (hpe : p ≤ e) (he : e < pend) (h0 : rd buf e = 0)
    (hnz : ∀ i, p ≤ i → i < e → rd buf i ≠ 0) (hf : e - p < fuel) :
    cstr_chk buf pend fuel p = .ok (cstr buf p) := by
  induction fuel generalizing p with
  | zero => omega
  | succ f ih =>
    rw [cstr_chk, rd_chk_ok buf pend p (by omega) hb, cstr_step buf p (by omega)]
    show (if rd buf p = 0 then _ else _) = _
    by_cases hz : rd buf p = 0
    · rw [if_pos hz, if_pos hz]
      rfl
    · have hlt : p < e := by
        rcases Nat.lt_or_ge p e with h | h
        · exact h
        · exact absurd (by rw [show p = e by omega]; exact h0) hz
      rw [if_neg hz, if_neg hz]
      show (cstr_chk buf pend f (p + 1) >>= _) = _
      rw [ih (p + 1) (by omega) (fun i hi hlt => hnz i (by omega) hlt) (by omega)]
      rfl

theorem name_chk_eq (buf : List Byte) (pend : Nat) (slot_name : Option Nat)
    (hb : pend ≤ buf.length) (ht : ∀ pt, slot_name = some pt → Terminated buf pend pt) :
    name_chk buf pend slot_name = .ok (slot_name.map (cstr buf)) := by
  cases slot_name with
  | none => rfl
  | some p =>
    obtain ⟨e, hpe, he, h0, hnz⟩ := ht p rfl
    rw [name_chk, cstr_chk_eq buf pend (buf.length + 1 - p) p e hb hpe he h0 hnz (by omega)]
    rfl

/-- The checked reads of `%s` on a string with no zero byte before the declared
length fail, at the declared length. -/
theorem cstr_chk_unterminated (buf : List Byte) (pend fuel p : Nat) (hp : p ≤ pend)
    (hb : pend ≤ buf.length) (hnz : ∀ i, p ≤ i → i < pend → rd buf i ≠ 0)
    (hf : pend - p < fuel) : cstr_chk buf pend fuel p = .error pend := by
  induction fuel generalizing p with
  | zero => omega
  | succ f ih =>
    rw [cstr_chk]
    by_cases hlt : p < pend
    · rw [rd_chk_ok buf pend p hlt hb]
      show (if rd buf p = 0 then _ else _) = _
      rw [if_neg (hnz p (Nat.le_refl _) hlt)]
      show (cstr_chk buf pend f (p + 1) >>= _) = _
      rw [ih (p + 1) (by omega) (fun i hi h => hnz i (by omega) h) (by omega)]
      rfl
    · have hpe : p = pend := by omega
      have : rd_chk buf pend p = .error pend := by
        simp [rd_chk, hpe]
      rw [this]
      rfl

/-- A checked read outside the declared length fails. -/
theorem cstr_chk_outside (buf : List Byte) (pend fuel p : Nat) (hp : pend ≤ p) :
    cstr_chk buf pend fuel p = .error p := by
  cases fuel with
  | zero => rfl
  | succ f =>
    rw [cstr_chk]
    have : rd_chk buf pend p = .error p := by
      simp [rd_chk, Nat.not_lt.2 hp]
    rw [this]
    rfl

theorem name_chk_unterminated (buf : List Byte) (pend p : Nat) (hp : p ≤ pend)
    (hb : pend ≤ buf.length) (hnz : ∀ i, p ≤ i → i < pend → rd buf i ≠ 0) :
    name_chk buf pend (some p) = .error pend := by
  rw [name_chk, cstr_chk_unterminated buf pend _ p hp hb hnz (by omega)]
  rfl

/-- The checked reads of `%s` pass exactly on the strings that have their zero
byte inside the declared length. -/
theorem name_chk_ok_iff (buf : List Byte) (pend p : Nat) (hb : pend ≤ buf.length) :
    (∃ s, name_chk buf pend (some p) = .ok s) ↔ Terminated buf pend p := by
  constructor
  · rintro ⟨s, hs⟩
    by_cases hp : p < pend
    · by_cases hz : ∃ e, p ≤ e ∧ e < pend ∧ rd buf e = 0
      · obtain ⟨a, b, c⟩ := Nat.find_spec hz
        refine ⟨Nat.find hz, a, b, c, fun i hi hlt h0 => ?_⟩
        exact Nat.find_min hz hlt ⟨hi, by omega, h0⟩
      · have hnz : ∀ i, p ≤ i → i < pend → rd buf i ≠ 0 :=
          fun i hi hlt h0 => hz ⟨i, hi, hlt, h0⟩
        rw [name_chk, cstr_chk_unterminated buf pend _ p (by omega) hb hnz (by omega)] at hs
        cases hs
    · rw [name_chk, cstr_chk_outside buf pend _ p (by omega)] at hs
      cases hs
  · intro ht
    exact ⟨_, name_chk_eq buf pend (some p) hb (fun pt h => by cases h; exact ht)⟩

theorem debug_name_chk_eq (buf : List Byte) (pend : Nat) (do_debug : Bool)
    (slot_name : Option Nat) (hb : pend ≤ buf.length)
    (ht : ∀ pt, slot_name = some pt → Terminated buf pend pt) :
    debug_name_chk buf pend do_debug slot_name = .ok () := by
  unfold debug_name_chk
  cases do_debug with
  | false => rfl
  | true =>
    rw [if_pos rfl]
    show (name_chk buf pend slot_name >>= _) = _
    rw [name_chk_eq buf pend slot_name hb ht]
    rfl

/-- The checked `slot_check` agrees with `slot_check` when the record fields it
reads lie below `pend` (offsets 4 and 5 for a type-9 record, offsets up to 0x10
when the length is at least 0x10) and the strings it may print are terminated. -/
theorem slot_check_chk_eq (buf : List Byte) (pend : Nat) (qbdf : pci_bdf) (do_debug : Bool)
    (start type len pcur ret : Nat) (strings : List (Option Nat)) (hb : pend ≤ buf.length)
    (h5 : type = 9 → start + 5 < pend) (h10 : type = 9 → 0x10 ≤ len → start + 0x10 < pend)
    (ht : ∀ i pt, slot_name_of strings i = some pt → Terminated buf pend pt) :
    slot_check_chk buf pend qbdf do_debug start type len pcur strings ret
      = .ok (slot_check buf qbdf start type len pcur strings ret) := by
  unfold slot_check_chk slot_check
  by_cases htype : type = 9
  · rw [if_pos htype, if_pos htype, rd_chk_ok buf pend _ (by have := h5 htype; omega) hb,
      rd_chk_ok buf pend _ (h5 htype) hb]
    show (if len < 0x10 then _ else _) = _
    by_cases hl : len < 0x10
    · rw [if_pos hl]
      simp only [if_pos hl]
      rfl
    · rw [if_neg hl]
      simp only [if_neg hl]
      have hd := debug_name_chk_eq buf pend do_debug
        (slot_name_of strings (rd buf (start + 0x04))) hb (ht _)
      by_cases hp : pci_slot_type (rd buf (start + 0x05)) = true
      · have h := h10 htype (by omega)
        have hn := name_chk_eq buf pend (slot_name_of strings (rd buf (start + 0x04))) hb
          (ht _)
        rw [if_pos hp, if_pos hp, rd16_chk_ok buf pend _ (by omega) hb]
        show (rd_chk buf pend (start + 0x0f) >>= _) = _
        rw [rd_chk_ok buf pend _ (by omega) hb]
        show (rd_chk buf pend (start + 0x10) >>= _) = _
        rw [rd_chk_ok buf pend _ h hb]
        show (debug_name_chk buf pend do_debug _ >>= _) = _
        rw [hd]
        show (if qbdf.all = true then _ else _) = _
        split_ifs
        · show (name_chk buf pend _ >>= _) = _
          rw [hn]
          rfl
        · show (name_chk buf pend _ >>= _) = _
          rw [hn]
          rfl
        · rfl
      · rw [if_neg hp, if_neg hp]
        show (debug_name_chk buf pend do_debug _ >>= _) = _
        rw [hd]
        rfl
  · rw [if_neg htype, if_neg htype]
    rfl

theorem slot_name_of_terminated (buf : List Byte) (pend n p q : Nat) (strs : List (Option Nat))
    (h : scan_strings buf pend 255 n p = .ok (q, strs)) (i pt : Nat)
    (hs : slot_name_of strs i = some pt) : Terminated buf pend pt := by
  unfold slot_name_of at hs
  split_ifs at hs with hi
  exact scan_strings_terminated buf pend 255 n p q strs h (i - 1) pt hs (by omega)

/-- A pass of the checked loop body entered under the loop condition makes no
read outside the declared length, and agrees with `loop_body`. -/
theorem loop_body_chk_eq (buf : List Byte) (pend : Nat) (qbdf : pci_bdf) (do_debug : Bool)
    (s ret : Nat) (hb : pend ≤ buf.length) (h4 : s + 4 < pend) :
    loop_body_chk buf pend qbdf do_debug s ret = .ok (loop_body buf pend qbdf s ret) := by
  unfold loop_body_chk
  show (rd_chk buf pend s >>= _) = _
  rw [rd_chk_ok buf pend s (by omega) hb]
  show (rd_chk buf pend (s + 1) >>= _) = _
  rw [rd_chk_ok buf pend _ (by omega) hb]
  show (rd16_chk buf pend (s + 2) >>= _) = _
  rw [rd16_chk_ok buf pend _ (by omega) hb]
  show (if rd buf (s + 1) < 4 then _ else _) = _
  by_cases h1 : rd buf (s + 1) < 4
  · rw [if_pos h1, loop_body_short _ _ _ _ _ h1]
    rfl
  rw [if_neg h1]
  show (if s + rd buf (s + 1) ≥ pend then _ else _) = _
  by_cases h2 : s + rd buf (s + 1) ≥ pend
  · rw [if_pos h2, (loop_body_overflow_iff buf pend qbdf s ret (by omega)).2 h2]
    rfl
  rw [if_neg h2]
  show (scan_strings_chk buf pend 255 0 _ >>= _) = _
  rw [scan_strings_chk_eq buf pend _ _ _ hb]
  cases e : scan_strings buf pend 255 0 (s + rd buf (s + 1)) with
  | error er =>
    have : loop_body buf pend qbdf s ret = .bad er := by
      simp [loop_body, h1, h2, e]
    rw [this]
    rfl
  | ok v =>
    obtain ⟨q, strs⟩ := v
    rw [loop_body_ok buf pend qbdf s ret q strs (by omega) (by omega) e]
    have b := scan_strings_two buf pend 253 _ _ _ e
    show slot_check_chk buf pend qbdf do_debug s (rd buf s) (rd buf (s + 1)) q strs ret = _
    exact slot_check_chk_eq buf pend qbdf do_debug s _ _ q ret strs hb (fun _ => by omega)
      (fun _ _ => by omega) (slot_name_of_terminated buf pend 0 _ q strs e)

theorem walk_chk_eq (buf : List Byte) (pend : Nat) (qbdf : pci_bdf) (do_debug : Bool)
    (fuel s ret : Nat) (hb : pend ≤ buf.length) :
    walk_chk buf pend qbdf do_debug fuel s ret = (walk buf pend qbdf fuel s ret).map .ok := by
  induction fuel generalizing s ret with
  | zero => rfl
  | succ f ih =>
    simp only [walk_chk, walk]
    by_cases h : s + 4 < pend
    · rw [if_pos h, if_pos h, loop_body_chk_eq buf pend qbdf do_debug s ret hb h]
      cases loop_body buf pend qbdf s ret with
      | bad e => rfl
      | brk o r => rfl
      | next p r o =>
        simp only [ih]
        cases walk buf pend qbdf f p r with
        | none => rfl
        | some x => rfl
    · rw [if_neg h, if_neg h]
      rfl

/-- C11: the run of `decode_dmi` with every read of the buffer checked against
the declared length and the buffer length (record headers, string-area bytes,
the type-9 fields at record offsets 0x04, 0x05 and 0x0D to 0x10, and the bytes
that `printf` and, with `-v`, `DEBUG` read through `slot_name` until they meet
a zero byte) never fails a check: it ends, with the result of `decode_dmi`.
The check of the `%s` reads is a real one: it passes exactly on the strings
that have their zero byte inside the declared length. -/
theorem reads_within_declared_length (file : List Byte) (len : Nat) (qbdf : pci_bdf)
    (do_debug : Bool) :
    decode_dmi_chk file len qbdf do_debug = (decode_dmi file len qbdf).map .ok
    ∧ (∃ r, decode_dmi_chk file len qbdf do_debug = some (.ok r))
    ∧ (len ≤ file.length → ∀ p,
        ((∃ s, name_chk (file.take len) len (some p) = .ok s)
          ↔ Terminated (file.take len) len p)
        ∧ ((∀ i, p ≤ i → i < len → rd file i ≠ 0) → p ≤ len →
            name_chk (file.take len) len (some p) = .error len)) := by
  have h : decode_dmi_chk file len qbdf do_debug = (decode_dmi file len qbdf).map .ok := by
    unfold decode_dmi_chk decode_dmi
    by_cases hl : file.length < len
    · rw [if_pos hl, if_pos hl]
      rfl
    · rw [if_neg hl, if_neg hl]
      exact walk_chk_eq _ _ _ _ _ _ _ (by rw [List.length_take]; omega)
  obtain ⟨r, hr⟩ := decode_dmi_total file len qbdf
  refine ⟨h, ⟨r, by rw [h, hr]; rfl⟩, fun hlen p => ?_⟩
  have hb : len ≤ (file.take len).length := by rw [List.length_take]; omega
  refine ⟨name_chk_ok_iff _ len p hb, fun hnz hp => ?_⟩
  exact name_chk_unterminated _ len p hp hb
    (fun i hi hlt => by rw [rd_take file len i hlt]; exact hnz i hi hlt)

/-- C11, an instance: the checked run on the table of `slot1_rec`, with and
without `-v`, gives the result of the run.  The checks can fail: a checked read
at the declared length fails, a pass entered where only 3 bytes remain fails,
and the `%s` read of the string `Slot1` fails when the declared length cuts the
table before the zero byte of the string. -/
theorem reads_within_declared_length_witness :
    decode_dmi_chk (table [slot1_rec]) 24 ⟨true, 0, 0, 0, 0⟩ true
      = some (.ok ⟨[.line 0 2 3 1 (some [0x53, 0x6c, 0x6f, 0x74, 0x31])], .returned 0⟩)
    ∧ decode_dmi_chk (table [slot1_rec]) 24 ⟨false, 0, 2, 3, 1⟩ false
      = some (.ok ⟨[.name (some [0x53, 0x6c, 0x6f, 0x74, 0x31])], .returned 0⟩)
    ∧ rd_chk (table [slot1_rec]) 24 24 = .error 24
    ∧ loop_body_chk (table [slot1_rec]) 24 ⟨true, 0, 0, 0, 0⟩ true 21 0 = .error 24
    ∧ name_chk (table [slot1_rec]) 24 (some 17) = .ok (some [0x53, 0x6c, 0x6f, 0x74, 0x31])
    ∧ name_chk ((table [slot1_rec]).take 22) 22 (some 17) = .error 22 :=
  ⟨(reads_within_declared_length (table [slot1_rec]) 24 ⟨true, 0, 0, 0, 0⟩ true).1.trans
      (congrArg (Option.map Except.ok)
        (show decode_dmi (table [slot1_rec]) 24 ⟨true, 0, 0, 0, 0⟩
          = some ⟨[.line 0 2 3 1 (some [0x53, 0x6c, 0x6f, 0x74, 0x31])], .returned 0⟩
          from by decide)),
    (reads_within_declared_length (table [slot1_rec]) 24 ⟨false, 0, 2, 3, 1⟩ false).1.trans
      (congrArg (Option.map Except.ok)
        (show decode_dmi (table [slot1_rec]) 24 ⟨false, 0, 2, 3, 1⟩
          = some ⟨[.name (some [0x53, 0x6c, 0x6f, 0x74, 0x31])], .returned 0⟩
          from by decide)),
    by rfl, by rfl, by rfl,
    ((reads_within_declared_length (table [slot1_rec]) 22 ⟨true, 0, 0, 0, 0⟩ true).2.2
      (by decide) 17).2 (by decide) (by decide)⟩

/-- C18, instances: the entry points `ep32` and `ep64` with another checksum
byte, and a file with the anchor `_SM_` and an inadmissible length. -/
theorem checksum_ignored_witness :
    read_entrypoint (ep32.set 4 0x00) = read_entrypoint ep32
    ∧ read_entrypoint (ep64.set 5 0xFF) = read_entrypoint ep64
    ∧ read_entrypoint (([0x5F, 0x53, 0x4D, 0x5F, 1, 0x10, 2, 8] : List Byte).set 4 9)
        = .error .BadLength :=
  ⟨((checksum_ignored ep32 0x00).1 (by decide)).1,
   ((checksum_ignored ep64 0xFF).2 (by decide)).1,
   (((checksum_ignored [0x5F, 0x53, 0x4D, 0x5F, 1, 0x10, 2, 8] 9).1 (by decide)).1).trans
     (by rfl)⟩

end Dmiprint
